import Mathlib

/- Shallow embedding of the icon-minifier core (minifier.ts): the crawler
normalization, icon classification, prefix inference, and the subsetting
engine of FontManager.minify. -/

/-- Glyph record of the font codec: the unicode field lists the codepoints
attached to the glyph, and gid stands for the opaque shape data. -/
structure Glyph where
  unicode : List Nat
  gid : Nat
deriving DecidableEq

/-- FontFace: the associated variant class names (clss) and the loaded font,
viewed as its glyph list. -/
structure FontFace where
  clss : List String
  font : List Glyph
deriving DecidableEq

/-- Embeds the font codec find call with a unicode filter: the glyphs whose
unicode list contains the requested codepoint. -/
def FontFace.find (ff : FontFace) (cp : Nat) : List Glyph :=
  ff.font.filter (fun g => g.unicode.contains cp)

/-- Canonical icon identity: one name class plus modifier classes. -/
structure Icon where
  name : String
  modifiers : List String
deriving DecidableEq

/-- Embeds Icon.parse from minifier.ts: tokens belonging to the icon-class set
are name candidates; zero candidates skips, one produces the Icon, more errors. -/
def Icon.parse (unparsed : List String) (iconClasses : List String) : Except String (Option Icon) :=
  let names := unparsed.filter (fun cls => iconClasses.contains cls)
  if names.length > 1 then
    Except.error "Detected icon with more than one icon class."
  else if names.length = 0 then
    Except.ok Option.none
  else
    Except.ok (Option.some (Icon.mk (names.headD "") (unparsed.filter (fun cls => cls ≠ names.headD ""))))

/-- Splits a character list at runs of whitespace, matching the JS string split
on a whitespace-run regex. The Bool argument records being inside a separator
run and the last list argument accumulates the current token. -/
def splitRunsGo : Bool → List Char → List Char → List (List Char)
  | _, [], acc => [acc.reverse]
  | inWs, c :: cs, acc =>
    if c.isWhitespace then
      if inWs then splitRunsGo true cs acc
      else acc.reverse :: splitRunsGo true cs []
    else splitRunsGo false cs (c :: acc)

/-- String-level wrapper of splitRunsGo. -/
def splitWs (s : String) : List String :=
  (splitRunsGo false s.data []).map (fun l => String.mk l)

/-- First-occurrence deduplication, matching the JS Set insertion order. -/
def dedupFirst : List String → List String
  | [] => []
  | x :: xs => x :: (dedupFirst xs).filter (fun y => y ≠ x)

/-- Lexicographic comparison of character lists by code unit, the comparison
the JS array sort applies to strings. -/
def lexLe : List Char → List Char → Bool
  | [], _ => true
  | _ :: _, [] => false
  | a :: as, b :: bs => if a = b then lexLe as bs else decide (a.toNat < b.toNat)

/-- String-level wrapper of lexLe. -/
def strLe (a b : String) : Bool := lexLe a.data b.data

/-- The canonical dedup key computed in Crawler.findIcons: split the raw match
on whitespace, sort the tokens, and rejoin with single spaces. -/
def canonKey (s : String) : String :=
  String.intercalate " " (List.insertionSort (fun a b => strLe a b = true) (splitWs s))

/-- Splits a character list at every occurrence of the separator character,
matching the JS string split on a single-character separator. -/
def splitCharAux (sep : Char) : List Char → List Char → List (List Char)
  | [], acc => [acc.reverse]
  | c :: cs, acc =>
    if c = sep then acc.reverse :: splitCharAux sep cs []
    else splitCharAux sep cs (c :: acc)

/-- String-level wrapper of splitCharAux. -/
def splitChar (sep : Char) (s : String) : List String :=
  (splitCharAux sep s.data []).map (fun l => String.mk l)

/-- Embeds the normalize-and-dedup tail of Crawler.findIcons: canonicalize each
raw match, deduplicate, and split the distinct keys back into token lists. -/
def Crawler.findIconsDedup (ms : List String) : List (List String) :=
  (dedupFirst (ms.map canonKey)).map (fun s => splitChar ' ' s)

/-- One comparison of the findPrefix scan: true when the first word has a
character at index i and every word agrees with it at index i. -/
def agreeAt (ws : List (List Char)) (w0 : List Char) (i : Nat) : Bool :=
  (w0.get? i).isSome && ws.all (fun w => w.get? i == w0.get? i)

/-- The index scan of findPrefix, advancing while agreeAt holds. The fuel
argument bounds the iteration count and is chosen above any reachable index. -/
def scanIdx (ws : List (List Char)) (w0 : List Char) : Nat → Nat → Nat
  | i, 0 => i
  | i, Nat.succ fuel => if agreeAt ws w0 i then scanIdx ws w0 (i + 1) fuel else i

/-- Embeds findPrefix from minifier.ts: the leading-character scan over the
word list, with the border cases for an empty first word or a single word. -/
def findPrefix (words : List String) : String :=
  match words with
  | [] => ""
  | w0 :: rest =>
    if w0.data = [] ∨ rest = [] then w0
    else String.mk (w0.data.take (scanIdx ((w0 :: rest).map String.data) w0.data 0 (w0.data.length + 1)))

/-- Embeds CSSParser.getPrefixFromIconClasses: sample the key list at quartile
positions and take the common prefix of the samples. -/
def getPrefixFromIconClasses (iconClasses : List String) : String :=
  findPrefix ((List.range 4).map (fun i => iconClasses.getD (i * iconClasses.length / 4) ""))

/-- Embeds the toIconSelector closure of FontManager.minify. -/
def toIconSelector (icon : Icon) : String :=
  "." ++ icon.name ++ "." ++ String.intercalate "." icon.modifiers

/-- Embeds the intersection helper of minifier.ts, specialised to two lists. -/
def intersection (a b : List String) : List String :=
  a.filter (fun e => b.contains e)

/-- Embeds the hasIntersection closure of FontManager.minify. -/
def hasIntersection (ff : FontFace) (icon : Icon) : Bool :=
  decide (1 ≤ (intersection ff.clss icon.modifiers).length)

/-- The mutable state threaded through FontManager.minify: the packed glyph
list, the per-descriptor legacy-to-new codepoint maps (indexed in parallel with
the descriptor list), the selector-group map, and the shared counter. -/
structure MState where
  glyfs : List Glyph
  assigns : List (List (Nat × Nat))
  sel : List (Nat × List String)
  counter : Nat
deriving DecidableEq

/-- Association-list lookup, standing for a JS Map get. -/
def lookupA (m : List (Nat × Nat)) (k : Nat) : Option Nat :=
  Option.map Prod.snd (m.find? (fun p => p.1 == k))

/-- Association-list update, standing for a JS Map set: replaces the value at
an existing key, else appends the pair in insertion order. -/
def setA (m : List (Nat × Nat)) (k v : Nat) : List (Nat × Nat) :=
  if m.any (fun p => p.1 == k) then m.map (fun p => if p.1 == k then (p.1, v) else p)
  else m ++ [(k, v)]

/-- Selector-group update: appends the selector to the list at the key,
creating the entry first when absent, as registerMapping does. -/
def pushSel (m : List (Nat × List String)) (k : Nat) (c : String) : List (Nat × List String) :=
  if m.any (fun p => p.1 == k) then m.map (fun p => if p.1 == k then (p.1, p.2 ++ [c]) else p)
  else m ++ [(k, [c])]

/-- Association-list lookup for the icon-to-codepoint table. -/
def lookupS (m : List (String × Nat)) (k : String) : Option Nat :=
  Option.map Prod.snd (m.find? (fun p => p.1 == k))

/-- Embeds the addGlyph closure of FontManager.minify. The descriptor is
addressed by its index i in the active descriptor list, standing for the JS
object identity used as the Map key. A stored new codepoint of zero is treated
as absent, matching the JS falsiness test on the looked-up value. -/
def addGlyph (ff : FontFace) (i : Nat) (cp : Nat) (s : MState) : Option Nat × MState :=
  match ff.find cp with
  | [] => (Option.none, s)
  | g :: _ =>
    match lookupA (s.assigns.getD i []) cp with
    | Option.some n =>
      if n ≠ 0 then (Option.some n, s)
      else
        (Option.some s.counter,
          MState.mk (s.glyfs ++ [Glyph.mk [s.counter] g.gid])
            (s.assigns.set i (setA (s.assigns.getD i []) cp s.counter))
            s.sel (s.counter + 1))
    | Option.none =>
      (Option.some s.counter,
        MState.mk (s.glyfs ++ [Glyph.mk [s.counter] g.gid])
          (s.assigns.set i (setA (s.assigns.getD i []) cp s.counter))
          s.sel (s.counter + 1))

/-- Embeds the registerMapping closure of FontManager.minify. -/
def registerMapping (newcp : Nat) (icon : Icon) (s : MState) : MState :=
  MState.mk s.glyfs s.assigns (pushSel s.sel newcp (toIconSelector icon)) s.counter

/-- Pairs every element with its index, starting from the given base index. -/
def enumFrom {α : Type} : Nat → List α → List (Nat × α)
  | _, [] => []
  | i, x :: xs => (i, x) :: enumFrom (i + 1) xs

/-- One descriptor step of the fallback expansion in FontManager.minify: add
the glyph if the descriptor has it, then register one derived icon per
associated class; a missing glyph or a falsy codepoint registers nothing. -/
def fallbackStep (cp : Nat) (icon : Icon) (s : MState) (q : Nat × FontFace) : MState :=
  match addGlyph q.2 q.1 cp s with
  | (Option.none, s2) => s2
  | (Option.some ncp, s2) =>
    if ncp = 0 then s2
    else q.2.clss.foldl (fun st cls =>
      registerMapping ncp (Icon.mk icon.name (icon.modifiers ++ [cls])) st) s2

/-- The fallback expansion loop of FontManager.minify over all descriptors. -/
def fallbackExpand (ffs : List FontFace) (cp : Nat) (icon : Icon) (s : MState) : MState :=
  (enumFrom 0 ffs).foldl (fun st q => fallbackStep cp icon st q) s

/-- Embeds the per-icon body of the multi-variant branch of FontManager.minify. -/
def processIconMulti (ffs : List FontFace) (itc : List (String × Nat)) (s : MState) (icon : Icon) : Except String MState :=
  match lookupS itc icon.name with
  | Option.none => Except.error "No codepoint found."
  | Option.some cp =>
    if cp = 0 then Except.error "No codepoint found."
    else
      match ((enumFrom 0 ffs).filter (fun q => hasIntersection q.2 icon)).head? with
      | Option.none => Except.ok (fallbackExpand ffs cp icon s)
      | Option.some (i, ff) =>
        match addGlyph ff i cp s with
        | (Option.none, _) => Except.error "Could not find glyphs."
        | (Option.some ncp, s2) =>
          if ncp = 0 then Except.error "Could not find glyphs."
          else Except.ok (registerMapping ncp icon s2)

/-- Embeds the per-icon body of the single-variant branch of FontManager.minify. -/
def processIconSingle (ff : FontFace) (itc : List (String × Nat)) (s : MState) (icon : Icon) : Except String MState :=
  match lookupS itc icon.name with
  | Option.none => Except.error "No codepoint found."
  | Option.some cp =>
    if cp = 0 then Except.error "No codepoint found."
    else
      match addGlyph ff 0 cp s with
      | (Option.none, _) => Except.error "Could not find glyphs."
      | (Option.some ncp, s2) =>
        if ncp = 0 then Except.error "Could not find glyphs."
        else Except.ok (registerMapping ncp icon s2)

/-- Sequential processing of the icon list, aborting on the first error. -/
def runIcons (step : MState → Icon → Except String MState) : MState → List Icon → Except String MState
  | s, [] => Except.ok s
  | s, icon :: rest =>
    match step s icon with
    | Except.error e => Except.error e
    | Except.ok s2 => runIcons step s2 rest

/-- Embeds FontManager.minify, returning the final internal state. -/
def minifyState (ffs : List FontFace) (icons : List Icon) (itc : List (String × Nat)) (base : Nat) : Except String MState :=
  if ffs.length = 0 then Except.error "No fonts added."
  else if 1 < ffs.length then
    runIcons (fun s icon => processIconMulti ffs itc s icon)
      (MState.mk [] (List.replicate ffs.length []) [] base) icons
  else
    runIcons (fun s icon => processIconSingle (ffs.headD (FontFace.mk [] [])) itc s icon)
      (MState.mk [] (List.replicate ffs.length []) [] base) icons

/-- The pair FontManager.minify returns: the packed glyph list installed into
the output font and the selector-group map. -/
def FontManager.minify (ffs : List FontFace) (icons : List Icon) (itc : List (String × Nat)) (base : Nat) : Except String (List Glyph × List (Nat × List String)) :=
  Except.map (fun s : MState => (s.glyfs, s.sel)) (minifyState ffs icons itc base)

/-- The multiset of new codepoints recorded across all per-descriptor maps. -/
def MState.vals (s : MState) : List Nat :=
  (s.assigns.flatten).map Prod.snd

/-- Core invariant of the subsetting engine state (everything except the
selector coverage of glyphs): counters, glyph unicode fields, per-descriptor
map functionality, and the allocated-codepoint range. -/
structure MinifyCore (base : Nat) (nffs : Nat) (s : MState) : Prop where
  alen : s.assigns.length = nffs
  counter_eq : s.counter = base + s.glyfs.length
  glyf_uni : ∀ j, j < s.glyfs.length → (s.glyfs.getD j (Glyph.mk [] 0)).unicode = [base + j]
  keys_nodup : ∀ m ∈ s.assigns, (m.map Prod.fst).Nodup
  vals_mem : ∀ v ∈ MState.vals s, base ≤ v ∧ v < s.counter
  vals_cover : ∀ v, base ≤ v → v < s.counter → v ∈ MState.vals s
  vals_nodup : (MState.vals s).Nodup
  count_eq : s.glyfs.length = (s.assigns.flatten).length
  sel_range : ∀ p ∈ s.sel, p.2 ≠ [] ∧ base ≤ p.1 ∧ p.1 < s.counter
  sel_nodup : (s.sel.map Prod.fst).Nodup

/-- Selector coverage: every packed glyph has a selector-group entry carrying
exactly its codepoint, with a non-empty selector list. -/
def glyphSel (s : MState) : Prop :=
  ∀ g ∈ s.glyfs, ∃ p, p ∈ s.sel ∧ g.unicode = [p.1] ∧ p.2 ≠ []

/-- C4: Icon.parse is determined by the count of tokens belonging to the known
icon-class set: zero such tokens returns none (the combination is skipped and
the pass continues), exactly one returns an Icon made of that token and all
remaining tokens as modifiers, and more than one raises the fatal
ambiguous-icon error. -/
theorem claim_C4_parse_trichotomy (unparsed iconClasses : List String) :
    ((unparsed.filter (fun cls => iconClasses.contains cls)).length = 0 →
      Icon.parse unparsed iconClasses = Except.ok Option.none) ∧
    (∀ n, unparsed.filter (fun cls => iconClasses.contains cls) = [n] →
      Icon.parse unparsed iconClasses =
        Except.ok (Option.some (Icon.mk n (unparsed.filter (fun cls => cls ≠ n))))) ∧
    (1 < (unparsed.filter (fun cls => iconClasses.contains cls)).length →
      Icon.parse unparsed iconClasses = Except.error "Detected icon with more than one icon class.") := by
  refine ⟨fun h0 => ?_, fun n hn => ?_, fun h2 => ?_⟩
  · simp only [Icon.parse]
    rw [h0]
    simp
  · simp only [Icon.parse]
    rw [hn]
    simp
  · simp only [Icon.parse]
    rw [if_pos h2]

/-- C4 witness: the three branches at concrete inputs. -/
theorem claim_C4_witness :
    Icon.parse ["fa-spin"] ["fa-home", "fa-user"] = Except.ok Option.none ∧
    Icon.parse ["fab", "fa-home"] ["fa-home", "fa-user"] =
      Except.ok (Option.some (Icon.mk "fa-home" ["fab"])) ∧
    Icon.parse ["fa-home", "fa-user"] ["fa-home", "fa-user"] =
      Except.error "Detected icon with more than one icon class." := by
  refine ⟨(claim_C4_parse_trichotomy ["fa-spin"] ["fa-home", "fa-user"]).1 (by rfl),
    ?_, (claim_C4_parse_trichotomy ["fa-home", "fa-user"] ["fa-home", "fa-user"]).2.2 (by decide)⟩
  have h := (claim_C4_parse_trichotomy ["fab", "fa-home"] ["fa-home", "fa-user"]).2.1 "fa-home" (by rfl)
  rw [h]
  rfl

/-- C9: the selector string registered for an Icon with an empty modifier set
is ".fa-home." with a trailing dot, not the ".fa-home" the specification
describes, because toIconSelector always inserts a dot between the name and
the dot-joined (possibly empty) modifier list. -/
theorem claim_C9_empty_modifier_selector :
    toIconSelector (Icon.mk "fa-home" []) = ".fa-home." ∧
    (".fa-home." : String) ≠ ".fa-home" := by
  exact ⟨rfl, by decide⟩

/-- C10: a crawled combination repeating the same known icon class twice is
sorted but not deduplicated within the combination by the normalizer, so both
copies reach Icon.parse, which raises the fatal more-than-one-icon-class
error even though only one distinct icon identity is named. -/
theorem claim_C10_duplicate_icon_class :
    Crawler.findIconsDedup ["fa-home fa-home"] = [["fa-home", "fa-home"]] ∧
    Icon.parse ["fa-home", "fa-home"] ["fa-home", "fa-user"] =
      Except.error "Detected icon with more than one icon class." := ⟨rfl, rfl⟩

/-- Characters with equal code units are equal. -/
theorem char_toNat_inj {a b : Char} (h : a.toNat = b.toNat) : a = b :=
  Char.eq_of_val_eq (UInt32.toNat.inj h)

/-- Totality of the code-unit comparison. -/
theorem lexLe_total : ∀ a b : List Char, lexLe a b = true ∨ lexLe b a = true
  | [], _ => Or.inl rfl
  | _ :: _, [] => Or.inr rfl
  | a :: as, b :: bs => by
    by_cases hab : a = b
    · subst hab
      rcases lexLe_total as bs with h | h
      · left; simpa [lexLe] using h
      · right; simpa [lexLe] using h
    · rcases Nat.lt_or_ge a.toNat b.toNat with h | h
      · left; simp [lexLe, hab, h]
      · have hlt : b.toNat < a.toNat :=
          lt_of_le_of_ne h (fun e => hab (char_toNat_inj e.symm))
        have hba : ¬ b = a := fun e => hab e.symm
        right; simp [lexLe, hba, hlt]

/-- Transitivity of the code-unit comparison. -/
theorem lexLe_trans : ∀ a b c : List Char, lexLe a b = true → lexLe b c = true → lexLe a c = true
  | [], _, _, _, _ => rfl
  | _ :: _, [], _, h1, _ => by simp [lexLe] at h1
  | _ :: _, _ :: _, [], _, h2 => by simp [lexLe] at h2
  | a :: as, b :: bs, c :: cs, h1, h2 => by
    by_cases hab : a = b <;> by_cases hbc : b = c
    · subst hab; subst hbc
      simp only [lexLe, if_pos rfl] at h1 h2 ⊢
      exact lexLe_trans as bs cs h1 h2
    · subst hab
      simp only [lexLe, if_neg hbc] at h2
      simp [lexLe, hbc, h2]
    · subst hbc
      simp only [lexLe, if_neg hab] at h1
      simp [lexLe, hab, h1]
    · simp only [lexLe, if_neg hab, decide_eq_true_eq] at h1
      simp only [lexLe, if_neg hbc, decide_eq_true_eq] at h2
      have hac : a.toNat < c.toNat := Nat.lt_trans h1 h2
      have hne : ¬ a = c := by
        intro e
        rw [e] at hac
        exact Nat.lt_irrefl _ hac
      simp [lexLe, hne, hac]

/-- Antisymmetry of the code-unit comparison. -/
theorem lexLe_antisymm : ∀ a b : List Char, lexLe a b = true → lexLe b a = true → a = b
  | [], [], _, _ => rfl
  | [], _ :: _, _, h2 => by simp [lexLe] at h2
  | _ :: _, [], h1, _ => by simp [lexLe] at h1
  | a :: as, b :: bs, h1, h2 => by
    by_cases hab : a = b
    · subst hab
      simp only [lexLe, if_pos rfl] at h1 h2
      rw [lexLe_antisymm as bs h1 h2]
    · exfalso
      have hba : ¬ b = a := fun e => hab e.symm
      simp only [lexLe, if_neg hab, decide_eq_true_eq] at h1
      simp only [lexLe, if_neg hba, decide_eq_true_eq] at h2
      exact Nat.lt_irrefl _ (Nat.lt_trans h1 h2)

/-- Totality of strLe. -/
theorem strLe_total (a b : String) : strLe a b = true ∨ strLe b a = true :=
  lexLe_total a.data b.data

/-- Transitivity of strLe. -/
theorem strLe_trans {a b c : String} (h1 : strLe a b = true) (h2 : strLe b c = true) :
    strLe a c = true :=
  lexLe_trans a.data b.data c.data h1 h2

/-- Antisymmetry of strLe. -/
theorem strLe_antisymm {a b : String} (h1 : strLe a b = true) (h2 : strLe b a = true) : a = b :=
  String.toList_inj.mp (lexLe_antisymm a.data b.data h1 h2)

/-- Membership in the first-occurrence deduplication. -/
theorem mem_dedupFirst (a : String) : ∀ (l : List String), a ∈ dedupFirst l ↔ a ∈ l := by
  intro l
  induction l with
  | nil => simp [dedupFirst]
  | cons x xs ih =>
    by_cases hax : a = x
    · subst hax; simp [dedupFirst]
    · simp [dedupFirst, List.mem_filter, hax, ih]

/-- The first-occurrence deduplication has no duplicates. -/
theorem nodup_dedupFirst : ∀ (l : List String), (dedupFirst l).Nodup := by
  intro l
  induction l with
  | nil => simp [dedupFirst]
  | cons x xs ih =>
    simp only [dedupFirst]
    refine List.nodup_cons.mpr ⟨?_, List.Nodup.filter _ ih⟩
    intro hmem
    have := (List.mem_filter.mp hmem).2
    simp at this

/-- C3: raw class-combination strings that are whitespace-token permutations of
each other receive the same canonical key (tokens sorted and rejoined), and the
deduplicated key list of Crawler.findIcons holds that key exactly once, so all
such permutations collapse to a single entry. -/
theorem claim_C3_order_independence (ms : List String) (s1 s2 : String)
    (h1 : s1 ∈ ms) (h2 : s2 ∈ ms)
    (hperm : List.Perm (splitWs s1) (splitWs s2)) :
    canonKey s1 = canonKey s2 ∧
    (dedupFirst (ms.map canonKey)).count (canonKey s1) = 1 := by
  haveI hA : IsAntisymm String (fun a b => strLe a b = true) :=
    ⟨fun _ _ u v => strLe_antisymm u v⟩
  haveI hT : IsTotal String (fun a b => strLe a b = true) := ⟨strLe_total⟩
  haveI hR : IsTrans String (fun a b => strLe a b = true) := ⟨fun _ _ _ u v => strLe_trans u v⟩
  have hsort : List.insertionSort (fun a b => strLe a b = true) (splitWs s1)
      = List.insertionSort (fun a b => strLe a b = true) (splitWs s2) := by
    refine List.eq_of_perm_of_sorted ?_ (List.sorted_insertionSort _ _) (List.sorted_insertionSort _ _)
    exact ((List.perm_insertionSort _ (splitWs s1)).trans hperm).trans
      (List.perm_insertionSort _ (splitWs s2)).symm
  have hkey : canonKey s1 = canonKey s2 := by
    simp only [canonKey, hsort]
  refine ⟨hkey, ?_⟩
  have hmem : canonKey s1 ∈ ms.map canonKey := List.mem_map_of_mem _ h1
  exact List.count_eq_one_of_mem (nodup_dedupFirst _) ((mem_dedupFirst _ _).mpr hmem)

/-- C3 witness: two permuted raw combinations at concrete inputs. -/
theorem claim_C3_witness :
    canonKey "fab fa-google" = canonKey "fa-google fab" ∧
    (dedupFirst ((["fab fa-google", "fa-google fab"]).map canonKey)).count (canonKey "fab fa-google") = 1 :=
  claim_C3_order_independence ["fab fa-google", "fa-google fab"] "fab fa-google" "fa-google fab"
    (by simp) (by simp) (by exact List.Perm.swap "fa-google" "fab" [])

/-- The scan index never moves backwards. -/
theorem scanIdx_ge (ws : List (List Char)) (w0 : List Char) :
    ∀ fuel i, i ≤ scanIdx ws w0 i fuel := by
  intro fuel
  induction fuel with
  | zero => intro i; exact Nat.le_refl i
  | succ fuel ih =>
    intro i
    cases hag : agreeAt ws w0 i with
    | true =>
      simp only [scanIdx, hag, if_pos]
      exact Nat.le_trans (Nat.le_succ i) (ih (i + 1))
    | false => simp [scanIdx, hag]

/-- Every index below the scan result satisfies agreeAt. -/
theorem scanIdx_agree (ws : List (List Char)) (w0 : List Char) :
    ∀ fuel i j, i ≤ j → j < scanIdx ws w0 i fuel → agreeAt ws w0 j = true := by
  intro fuel
  induction fuel with
  | zero =>
    intro i j hij hj
    simp only [scanIdx] at hj
    exact absurd hj (Nat.not_lt.mpr hij)
  | succ fuel ih =>
    intro i j hij hj
    cases hag : agreeAt ws w0 i with
    | false =>
      simp [scanIdx, hag] at hj
      exact absurd hj (Nat.not_lt.mpr hij)
    | true =>
      simp only [scanIdx, hag, if_pos] at hj
      rcases Nat.eq_or_lt_of_le hij with rfl | hlt
      · exact hag
      · exact ih (i + 1) j hlt hj

/-- With enough fuel, the scan stops at an index where agreeAt fails. -/
theorem scanIdx_stop (ws : List (List Char)) (w0 : List Char) :
    ∀ fuel i, w0.length < i + fuel → agreeAt ws w0 (scanIdx ws w0 i fuel) = false := by
  intro fuel
  induction fuel with
  | zero =>
    intro i hfi
    simp only [scanIdx]
    have hnone : w0[i]? = Option.none := List.getElem?_eq_none (by omega)
    simp [agreeAt, hnone]
  | succ fuel ih =>
    intro i hfi
    cases hag : agreeAt ws w0 i with
    | true =>
      simp only [scanIdx, hag, if_pos]
      exact ih (i + 1) (by omega)
    | false =>
      simp only [scanIdx, hag]
      simpa using hag

/-- The result of findPrefix is the longest common leading-character prefix of
the given non-empty word list: it is a common prefix, and any common prefix is
no longer. -/
theorem findPrefix_lcp (words : List String) (hw : words ≠ []) :
    (∀ w ∈ words, ( findPrefix words).data <+: w.data) ∧
    (∀ p : List Char, (∀ w ∈ words, p <+: w.data) →
      p.length ≤ ( findPrefix words).data.length) := by
  match words with
  | [] => exact absurd rfl hw
  | w0 :: rest =>
    by_cases hborder : w0.data = [] ∨ rest = []
    · have hres : findPrefix (w0 :: rest) = w0 := by
        simp only [findPrefix, if_pos hborder]
      rw [hres]
      rcases hborder with h0 | hr
      · constructor
        · intro w _
          rw [h0]
          exact List.nil_prefix
        · intro p hp
          have := hp w0 (List.mem_cons_self _ _)
          rw [h0] at this
          have hp0 : p = [] := List.prefix_nil.mp this
          simp [hp0, h0]
      · subst hr
        constructor
        · intro w hwmem
          rcases List.mem_singleton.mp hwmem with rfl
          exact List.prefix_refl _
        · intro p hp
          exact (hp w0 (List.mem_cons_self _ _)).length_le
    · push_neg at hborder
      obtain ⟨h0, hr⟩ := hborder
      have hres : findPrefix (w0 :: rest) =
          String.mk (w0.data.take (scanIdx ((w0 :: rest).map String.data) w0.data 0 (w0.data.length + 1))) := by
        simp only [findPrefix]
        rw [if_neg]
        push_neg
        exact ⟨h0, hr⟩
      rw [hres]
      set ws := (w0 :: rest).map String.data with hws
      set k := scanIdx ws w0.data 0 (w0.data.length + 1) with hk
      have hagree : ∀ j, j < k → agreeAt ws w0.data j = true := by
        intro j hj
        exact scanIdx_agree ws w0.data (w0.data.length + 1) 0 j (Nat.zero_le j) hj
      have hstop : agreeAt ws w0.data k = false := by
        exact scanIdx_stop ws w0.data (w0.data.length + 1) 0 (by omega)
      have hkle : k ≤ w0.data.length := by
        by_contra hkgt
        push_neg at hkgt
        have hag := hagree w0.data.length hkgt
        simp only [agreeAt, Bool.and_eq_true] at hag
        have hnone : w0.data.get? w0.data.length = Option.none := List.get?_eq_none.mpr (Nat.le_refl _)
        rw [hnone] at hag
        simp at hag
      have hget : ∀ j, j < k → ∀ w ∈ w0 :: rest, w.data.get? j = w0.data.get? j := by
        intro j hj w hwmem
        have hag := hagree j hj
        simp only [agreeAt, Bool.and_eq_true, List.all_eq_true] at hag
        have hmem : w.data ∈ ws := by
          rw [hws]
          exact List.mem_map_of_mem String.data hwmem
        have := hag.2 w.data hmem
        exact beq_iff_eq.mp this
      have hdata : (String.mk (w0.data.take k)).data = w0.data.take k := rfl
      constructor
      · intro w hwmem
        have htake : w.data.take k = w0.data.take k := by
          apply List.ext_get?
          intro j
          by_cases hj : j < k
          · rw [List.get?_take hj, List.get?_take hj]
            exact hget j hj w hwmem
          · have hlen1 : (w.data.take k).length ≤ j := by
              have := List.length_take_le k w.data
              omega
            have hlen2 : (w0.data.take k).length ≤ j := by
              have := List.length_take_le k w0.data
              omega
            rw [List.get?_eq_none.mpr hlen1, List.get?_eq_none.mpr hlen2]
        rw [hdata]
        calc w0.data.take k = w.data.take k := htake.symm
          _ <+: w.data := List.take_prefix k w.data
      · intro p hp
        by_contra hgt
        push_neg at hgt
        rw [hdata] at hgt
        have hklen : (w0.data.take k).length = k := by
          rw [List.length_take]
          omega
        have hklt : k < p.length := by omega
        have hpw0 : p <+: w0.data := hp w0 (List.mem_cons_self _ _)
        have hplen : p.length ≤ w0.data.length := hpw0.length_le
        have hksome : (w0.data.get? k).isSome = true := by
          rw [List.get?_eq_getElem?]
          rw [List.getElem?_eq_getElem (by omega)]
          rfl
        have hgetp : ∀ w ∈ w0 :: rest, w.data.get? k = p.get? k := by
          intro w hwmem
          have hpw : p <+: w.data := hp w hwmem
          rw [List.prefix_iff_eq_take.mp hpw]
          exact (List.get?_take hklt).symm
        have hagk : agreeAt ws w0.data k = true := by
          simp only [agreeAt, Bool.and_eq_true, List.all_eq_true]
          refine ⟨hksome, ?_⟩
          intro w' hw'
          rw [hws] at hw'
          obtain ⟨w, hwmem, rfl⟩ := List.mem_map.mp hw'
          rw [hgetp w hwmem, ← hgetp w0 (List.mem_cons_self _ _)]
          exact beq_self_eq_true _
        rw [hagk] at hstop
        exact Bool.noConfusion hstop

/-- C8: for a non-empty icon-class key list, the inferred prefix equals the
longest common leading-character prefix of the 4 samples taken at the quartile
positions floor of i times n over 4 for i from 0 to 3: it is a common prefix
of all samples and no common prefix is longer. -/
theorem claim_C8_prefix_inference (iconClasses : List String) (hne : iconClasses ≠ []) :
    (∀ w ∈ (List.range 4).map (fun i => iconClasses.getD (i * iconClasses.length / 4) ""),
        (getPrefixFromIconClasses iconClasses).data <+: w.data) ∧
    (∀ p : List Char,
        (∀ w ∈ (List.range 4).map (fun i => iconClasses.getD (i * iconClasses.length / 4) ""),
          p <+: w.data) →
        p.length ≤ (getPrefixFromIconClasses iconClasses).data.length) := by
  have hnn : (List.range 4).map (fun i => iconClasses.getD (i * iconClasses.length / 4) "") ≠ [] := by
    simp [List.range_succ]
  have h := findPrefix_lcp ((List.range 4).map (fun i => iconClasses.getD (i * iconClasses.length / 4) "")) hnn
  simpa only [getPrefixFromIconClasses] using h

/-- C8 witness: a concrete two-element class list whose quartile samples share
the prefix characterized by the theorem. -/
theorem claim_C8_witness :
    (["fa-home", "fa-user"] : List String) ≠ [] ∧
    ((∀ w ∈ (List.range 4).map (fun i => (["fa-home", "fa-user"] : List String).getD (i * (["fa-home", "fa-user"] : List String).length / 4) ""),
        (getPrefixFromIconClasses ["fa-home", "fa-user"]).data <+: w.data) ∧
    (∀ p : List Char,
        (∀ w ∈ (List.range 4).map (fun i => (["fa-home", "fa-user"] : List String).getD (i * (["fa-home", "fa-user"] : List String).length / 4) ""),
          p <+: w.data) →
        p.length ≤ (getPrefixFromIconClasses ["fa-home", "fa-user"]).data.length)) :=
  ⟨by decide, claim_C8_prefix_inference ["fa-home", "fa-user"] (by decide)⟩

/-- The head of a filtered list is the first element satisfying the predicate. -/
theorem head_filter_eq_find {α : Type} (p : α → Bool) :
    ∀ l : List α, (l.filter p).head? = l.find? p := by
  intro l
  induction l with
  | nil => rfl
  | cons x xs ih =>
    cases hx : p x with
    | true => simp [List.filter_cons, List.find?_cons_of_pos, hx]
    | false => simp [List.filter_cons, List.find?_cons_of_neg, hx, ih]

/-- A successful find over an enumerated list with an index-blind predicate
yields the first element satisfying the predicate, together with its position. -/
theorem find_enumFrom_some {α : Type} (pred : α → Bool) :
    ∀ (n : Nat) (l : List α) (i : Nat) (x : α),
      (enumFrom n l).find? (fun q => pred q.2) = Option.some (i, x) →
      ∃ k, i = n + k ∧ l.get? k = Option.some x ∧ pred x = true ∧
        ∀ j y, j < k → l.get? j = Option.some y → pred y = false := by
  intro n l
  induction l generalizing n with
  | nil =>
    intro i x h
    simp [enumFrom] at h
  | cons a as ih =>
    intro i x h
    simp only [enumFrom] at h
    cases hpa : pred a with
    | true =>
      rw [List.find?_cons_of_pos _ (by simpa using hpa)] at h
      obtain ⟨hn, hx⟩ := Prod.mk.injEq .. ▸ Option.some.inj h
      refine ⟨0, by omega, by simp [hx.symm], by rw [← hx]; exact hpa, ?_⟩
      intro j y hj
      omega
    | false =>
      rw [List.find?_cons_of_neg _ (by simpa using hpa)] at h
      obtain ⟨k, hik, hget, hpred, hmin⟩ := ih (n + 1) i x h
      refine ⟨k + 1, by omega, by simpa using hget, hpred, ?_⟩
      intro j y hj hgj
      cases j with
      | zero =>
        simp only [List.get?] at hgj
        rw [← Option.some.inj hgj]
        exact hpa
      | succ j =>
        exact hmin j y (by omega) (by simpa using hgj)

/-- C5: when at least one active descriptor intersects the modifiers of an
Icon, the multi-variant engine resolves the Icon from exactly the first such
descriptor in declaration order, with no ambiguity error: the chosen pair is
the minimal intersecting index, and processing reduces to one addGlyph on it
followed by one registerMapping of the original icon. -/
theorem claim_C5_first_descriptor (ffs : List FontFace) (itc : List (String × Nat))
    (s : MState) (icon : Icon) (cp i : Nat) (ff : FontFace) (ncp : Nat) (s2 : MState)
    (hcp : lookupS itc icon.name = Option.some cp) (hcp0 : cp ≠ 0)
    (hhead : ((enumFrom 0 ffs).filter (fun q => hasIntersection q.2 icon)).head? = Option.some (i, ff))
    (hadd : addGlyph ff i cp s = (Option.some ncp, s2)) (hncp : ncp ≠ 0) :
    (ffs.get? i = Option.some ff ∧ hasIntersection ff icon = true ∧
      ∀ j ffj, j < i → ffs.get? j = Option.some ffj → hasIntersection ffj icon = false) ∧
    processIconMulti ffs itc s icon = Except.ok (registerMapping ncp icon s2) := by
  have hfind : (enumFrom 0 ffs).find? (fun q => hasIntersection q.2 icon) = Option.some (i, ff) := by
    rw [← head_filter_eq_find]
    exact hhead
  obtain ⟨k, hik, hgetk, hpredx, hmin⟩ :=
    find_enumFrom_some (fun ffx => hasIntersection ffx icon) 0 ffs i ff hfind
  have hik0 : i = k := by omega
  subst hik0
  refine ⟨⟨hgetk, hpredx, fun j ffj hj hgj => hmin j ffj (by omega) hgj⟩, ?_⟩
  simp only [processIconMulti, hcp]
  rw [if_neg hcp0]
  simp only [hhead, hadd]
  rw [if_neg hncp]

/-- C5 witness: two descriptors both intersect the icon; the engine uses the
first (index 0) and resolves without an ambiguity error. -/
theorem claim_C5_witness :
    (([FontFace.mk ["fab"] [Glyph.mk [5] 0], FontFace.mk ["fas"] [Glyph.mk [5] 1]] : List FontFace).get? 0 =
        Option.some (FontFace.mk ["fab"] [Glyph.mk [5] 0]) ∧
      hasIntersection (FontFace.mk ["fab"] [Glyph.mk [5] 0]) (Icon.mk "fa-star" ["fab", "fas"]) = true ∧
      ∀ j ffj, j < 0 →
        ([FontFace.mk ["fab"] [Glyph.mk [5] 0], FontFace.mk ["fas"] [Glyph.mk [5] 1]] : List FontFace).get? j =
          Option.some ffj → hasIntersection ffj (Icon.mk "fa-star" ["fab", "fas"]) = false) ∧
    processIconMulti [FontFace.mk ["fab"] [Glyph.mk [5] 0], FontFace.mk ["fas"] [Glyph.mk [5] 1]]
        [("fa-star", 5)] (MState.mk [] [[], []] [] 1) (Icon.mk "fa-star" ["fab", "fas"]) =
      Except.ok (registerMapping 1 (Icon.mk "fa-star" ["fab", "fas"])
        (MState.mk [Glyph.mk [1] 0] [[(5, 1)], []] [] 2)) :=
  claim_C5_first_descriptor
    [FontFace.mk ["fab"] [Glyph.mk [5] 0], FontFace.mk ["fas"] [Glyph.mk [5] 1]]
    [("fa-star", 5)] (MState.mk [] [[], []] [] 1) (Icon.mk "fa-star" ["fab", "fas"])
    5 0 (FontFace.mk ["fab"] [Glyph.mk [5] 0]) 1 (MState.mk [Glyph.mk [1] 0] [[(5, 1)], []] [] 2)
    (by rfl) (by decide) (by rfl) (by rfl) (by decide)

/-- A lookup that returns none means no entry has the key. -/
theorem lookupA_none_iff (m : List (Nat × Nat)) (k : Nat) :
    lookupA m k = Option.none ↔ ∀ p ∈ m, p.1 ≠ k := by
  simp [lookupA, List.find?_eq_none]

/-- A successful lookup comes from an entry of the list. -/
theorem lookupA_some_mem {m : List (Nat × Nat)} {k v : Nat}
    (h : lookupA m k = Option.some v) : (k, v) ∈ m := by
  simp only [lookupA] at h
  cases hfind : m.find? (fun p => p.1 == k) with
  | none =>
    rw [hfind] at h
    simp at h
  | some p =>
    rw [hfind] at h
    simp only [Option.map_some'] at h
    have hv : p.2 = v := Option.some.inj h
    have hmem := List.mem_of_find?_eq_some hfind
    have hkey := List.find?_some hfind
    simp only [beq_iff_eq] at hkey
    have hpkv : p = (k, v) := by
      cases p
      simp_all
    rw [← hpkv]
    exact hmem

/-- Setting an absent key appends the new pair. -/
theorem setA_append {m : List (Nat × Nat)} {k v : Nat}
    (h : lookupA m k = Option.none) : setA m k v = m ++ [(k, v)] := by
  have hall := (lookupA_none_iff m k).mp h
  have hany : m.any (fun p => p.1 == k) = false := by
    rw [List.any_eq_false]
    intro p hp
    simp only [beq_iff_eq]
    exact hall p hp
  simp [setA, hany]

/-- Looking up a freshly appended key finds the appended value. -/
theorem lookupA_append_self {m : List (Nat × Nat)} {k v : Nat}
    (h : lookupA m k = Option.none) : lookupA (m ++ [(k, v)]) k = Option.some v := by
  simp only [lookupA] at h ⊢
  rw [List.find?_append]
  have hnone : m.find? (fun p => p.1 == k) = Option.none := by
    cases hf : m.find? (fun p => p.1 == k) with
    | none => rfl
    | some p =>
      rw [hf] at h
      simp at h
  rw [hnone]
  simp [List.find?]

/-- An absent key is not among the mapped keys. -/
theorem lookupA_none_not_mem {m : List (Nat × Nat)} {k : Nat}
    (h : lookupA m k = Option.none) : k ∉ m.map Prod.fst := by
  have hall := (lookupA_none_iff m k).mp h
  intro hmem
  obtain ⟨p, hp, hk⟩ := List.mem_map.mp hmem
  exact hall p hp hk

/-- Every entry of a pushSel result is the fresh entry, an untouched old
entry, or an old entry carrying the pushed key with the selector appended. -/
theorem pushSel_entry_shape (m : List (Nat × List String)) (k : Nat) (c : String) :
    ∀ q ∈ pushSel m k c,
      (∃ p ∈ m, q.1 = p.1 ∧ (q.2 = p.2 ∨ (p.1 = k ∧ q.2 = p.2 ++ [c]))) ∨ q = (k, [c]) := by
  intro q hq
  simp only [pushSel] at hq
  by_cases hany : m.any (fun p => p.1 == k) = true
  · rw [if_pos hany] at hq
    obtain ⟨p, hp, hfq⟩ := List.mem_map.mp hq
    left
    refine ⟨p, hp, ?_⟩
    by_cases hpk : (p.1 == k) = true
    · rw [if_pos hpk] at hfq
      rw [← hfq]
      exact ⟨rfl, Or.inr ⟨beq_iff_eq.mp hpk, rfl⟩⟩
    · rw [if_neg hpk] at hfq
      rw [← hfq]
      exact ⟨rfl, Or.inl rfl⟩
  · rw [if_neg hany] at hq
    rcases List.mem_append.mp hq with hold | hnew
    · left
      exact ⟨q, hold, rfl, Or.inl rfl⟩
    · right
      simpa using hnew

/-- pushSel preserves each old entry key with a superset selector list. -/
theorem pushSel_persist_elem {m : List (Nat × List String)} {p : Nat × List String}
    (k : Nat) (c : String) (hp : p ∈ m) {x : String} (hx : x ∈ p.2) :
    ∃ q ∈ pushSel m k c, q.1 = p.1 ∧ x ∈ q.2 := by
  simp only [pushSel]
  by_cases hany : m.any (fun pp => pp.1 == k) = true
  · rw [if_pos hany]
    refine ⟨if p.1 == k then (p.1, p.2 ++ [c]) else p, List.mem_map_of_mem _ hp, ?_⟩
    by_cases hpk : (p.1 == k) = true
    · rw [if_pos hpk]
      exact ⟨rfl, List.mem_append_left _ hx⟩
    · rw [if_neg hpk]
      exact ⟨rfl, hx⟩
  · rw [if_neg hany]
    exact ⟨p, List.mem_append_left _ hp, rfl, hx⟩

/-- pushSel makes the pushed selector reachable under the pushed key. -/
theorem pushSel_target (m : List (Nat × List String)) (k : Nat) (c : String) :
    ∃ q ∈ pushSel m k c, q.1 = k ∧ c ∈ q.2 := by
  simp only [pushSel]
  by_cases hany : m.any (fun pp => pp.1 == k) = true
  · rw [if_pos hany]
    obtain ⟨p, hp, hpk⟩ := List.any_eq_true.mp hany
    refine ⟨if p.1 == k then (p.1, p.2 ++ [c]) else p, List.mem_map_of_mem _ hp, ?_⟩
    rw [if_pos hpk]
    exact ⟨beq_iff_eq.mp hpk, List.mem_append_right _ (by simp)⟩
  · rw [if_neg hany]
    exact ⟨(k, [c]), List.mem_append_right _ (by simp), rfl, by simp⟩

/-- Every selector in a pushSel result is an old selector under the same key
or the pushed selector under the pushed key. -/
theorem pushSel_source (m : List (Nat × List String)) (k : Nat) (c : String) :
    ∀ q ∈ pushSel m k c, ∀ x ∈ q.2,
      (∃ p ∈ m, p.1 = q.1 ∧ x ∈ p.2) ∨ (q.1 = k ∧ x = c) := by
  intro q hq x hx
  rcases pushSel_entry_shape m k c q hq with ⟨p, hp, hq1, hq2⟩ | hnew
  · rcases hq2 with h2 | ⟨hpk, h2⟩
    · left
      exact ⟨p, hp, hq1.symm, h2 ▸ hx⟩
    · rw [h2] at hx
      rcases List.mem_append.mp hx with hold | hcx
      · left
        exact ⟨p, hp, hq1.symm, hold⟩
      · right
        exact ⟨hq1.trans hpk, by simpa using hcx⟩
  · rw [hnew] at hx ⊢
    right
    exact ⟨rfl, by simpa using hx⟩

/-- pushSel keeps the selector-group keys free of duplicates. -/
theorem pushSel_keys_nodup (m : List (Nat × List String)) (k : Nat) (c : String)
    (h : (m.map Prod.fst).Nodup) : ((pushSel m k c).map Prod.fst).Nodup := by
  simp only [pushSel]
  by_cases hany : m.any (fun p => p.1 == k) = true
  · rw [if_pos hany]
    have hmap : (List.map (fun p => if p.1 == k then (p.1, p.2 ++ [c]) else p) m).map Prod.fst
        = m.map Prod.fst := by
      rw [List.map_map]
      apply List.map_congr_left
      intro p _
      by_cases hpk : p.1 = k
      · simp [hpk]
      · simp [hpk]
    rw [hmap]
    exact h
  · rw [if_neg hany]
    rw [List.map_append]
    have hknot : k ∉ m.map Prod.fst := by
      intro hmem
      obtain ⟨p, hp, hpk⟩ := List.mem_map.mp hmem
      have hpa : (fun pp : Nat × List String => pp.1 == k) p = true := by simp [hpk]
      exact hany (List.any_eq_true.mpr ⟨p, hp, hpa⟩)
    simp only [List.map_cons, List.map_nil]
    have : (m.map Prod.fst ++ [k]).Nodup ↔ (k :: m.map Prod.fst).Nodup :=
      (List.perm_append_comm).nodup_iff
    rw [this]
    exact List.nodup_cons.mpr ⟨hknot, h⟩

/-- Replacing one bucket by itself with an appended element permutes the
flattened list to the old flattening with the element appended. -/
theorem flatten_set_append {β : Type} :
    ∀ (L : List (List β)) (i : Nat) (x : β), i < L.length →
      List.Perm ((L.set i ((L.getD i []) ++ [x])).flatten) (L.flatten ++ [x]) := by
  intro L
  induction L with
  | nil =>
    intro i x h
    simp at h
  | cons a as ih =>
    intro i x h
    cases i with
    | zero =>
      simp only [List.set_cons_zero, List.getD_cons_zero, List.flatten_cons]
      rw [List.append_assoc a [x] as.flatten, List.append_assoc a as.flatten [x]]
      exact List.Perm.append_left a List.perm_append_comm
    | succ i =>
      simp only [List.set_cons_succ, List.getD_cons_succ, List.flatten_cons]
      have hperm := ih i x (by simpa using Nat.lt_of_succ_lt_succ h)
      rw [List.append_assoc a as.flatten [x]]
      exact List.Perm.append_left a hperm

/-- The bucket at a valid index equals the indexed element. -/
theorem getD_eq_elem_of_lt {β : Type} {L : List (List β)} {i : Nat} (h : i < L.length) :
    L.getD i [] = L[i] := by
  simp [List.getD_eq_getElem?_getD, List.getElem?_eq_getElem h]

/-- The bucket at a valid index is a member of the bucket list. -/
theorem getD_mem_of_lt {β : Type} {L : List (List β)} {i : Nat} (h : i < L.length) :
    L.getD i [] ∈ L := by
  rw [getD_eq_elem_of_lt h]
  exact List.getElem_mem h

/-- A value stored in some per-descriptor map belongs to the value multiset. -/
theorem lookup_val_mem {s : MState} {i cp n : Nat} (hi : i < s.assigns.length)
    (h : lookupA (s.assigns.getD i []) cp = Option.some n) : n ∈ MState.vals s := by
  have hmem := lookupA_some_mem h
  have hsub := List.sublist_flatten_of_mem (getD_mem_of_lt hi)
  exact List.mem_map_of_mem Prod.snd (hsub.subset hmem)

/-- Core invariant preservation for the fresh-allocation branch of addGlyph. -/
theorem allocFresh_core (base nffs i cp gid : Nat) (s : MState)
    (hc : MinifyCore base nffs s) (hi : i < nffs)
    (hnone : lookupA (s.assigns.getD i []) cp = Option.none) :
    MinifyCore base nffs
      (MState.mk (s.glyfs ++ [Glyph.mk [s.counter] gid])
        (s.assigns.set i ((s.assigns.getD i []) ++ [(cp, s.counter)])) s.sel (s.counter + 1)) := by
  have hi' : i < s.assigns.length := by
    rw [hc.alen]
    exact hi
  have hperm := flatten_set_append s.assigns i (cp, s.counter) hi'
  have hvalsPerm : List.Perm
      (MState.vals (MState.mk (s.glyfs ++ [Glyph.mk [s.counter] gid])
        (s.assigns.set i ((s.assigns.getD i []) ++ [(cp, s.counter)])) s.sel (s.counter + 1)))
      (MState.vals s ++ [s.counter]) := by
    simpa [MState.vals, List.map_append] using hperm.map Prod.snd
  have hcountNotMem : s.counter ∉ MState.vals s := by
    intro hmem
    have := (hc.vals_mem s.counter hmem).2
    omega
  refine ⟨?_, ?_, ?_, ?_, ?_, ?_, ?_, ?_, ?_, ?_⟩
  · simp [hc.alen]
  · simp only [List.length_append, List.length_cons, List.length_nil]
    rw [hc.counter_eq]
    omega
  · intro j hj
    simp only [List.length_append, List.length_cons, List.length_nil] at hj
    simp only [List.getD_eq_getElem?_getD]
    by_cases hjl : j < s.glyfs.length
    · rw [List.getElem?_append_left hjl]
      have := hc.glyf_uni j hjl
      simpa [List.getD_eq_getElem?_getD] using this
    · have hje : j = s.glyfs.length := by omega
      rw [List.getElem?_append_right (by omega)]
      subst hje
      simp [hc.counter_eq]
  · intro m hm
    rcases List.mem_or_eq_of_mem_set hm with hold | hnew
    · exact hc.keys_nodup m hold
    · subst hnew
      rw [List.map_append]
      have hnodupOld := hc.keys_nodup _ (getD_mem_of_lt hi')
      have hknot := lookupA_none_not_mem hnone
      rw [(List.perm_append_comm).nodup_iff]
      simp only [List.map_cons, List.map_nil]
      exact List.nodup_cons.mpr ⟨hknot, hnodupOld⟩
  · intro v hv
    show base ≤ v ∧ v < s.counter + 1
    rw [hvalsPerm.mem_iff, List.mem_append] at hv
    have hce := hc.counter_eq
    rcases hv with hold | hnew
    · have := hc.vals_mem v hold
      exact ⟨this.1, by omega⟩
    · simp only [List.mem_singleton] at hnew
      subst hnew
      exact ⟨by omega, by omega⟩
  · intro v hv1 hv2
    have hv2b : v < s.counter + 1 := hv2
    rw [hvalsPerm.mem_iff, List.mem_append]
    by_cases hvc : v = s.counter
    · right
      simp [hvc]
    · left
      exact hc.vals_cover v hv1 (by omega)
  · rw [hvalsPerm.nodup_iff]
    rw [(List.perm_append_comm).nodup_iff]
    exact List.nodup_cons.mpr ⟨hcountNotMem, hc.vals_nodup⟩
  · simp only [List.length_append, List.length_cons, List.length_nil]
    rw [hperm.length_eq]
    simp [hc.count_eq]
  · intro p hp
    obtain ⟨h1, h2, h3⟩ := hc.sel_range p hp
    exact ⟨h1, h2, show p.1 < s.counter + 1 by omega⟩
  · exact hc.sel_nodup

/-- Case analysis for addGlyph under the core invariant: the descriptor lacks
the glyph and the state is unchanged with no codepoint; or the pair is already
assigned and the stored new codepoint is returned with the state unchanged; or
a fresh codepoint is allocated, the rewritten glyph clone is appended, and the
pair is recorded in the per-descriptor map. -/
theorem addGlyph_spec (base nffs : Nat) (ff : FontFace) (i cp : Nat) (s : MState)
    (hc : MinifyCore base nffs s) (hb : 1 ≤ base) (hi : i < nffs) :
    (ff.find cp = [] ∧ addGlyph ff i cp s = (Option.none, s)) ∨
    (∃ n, lookupA (s.assigns.getD i []) cp = Option.some n ∧ base ≤ n ∧ n < s.counter ∧
      addGlyph ff i cp s = (Option.some n, s)) ∨
    (∃ g gs, ff.find cp = g :: gs ∧ lookupA (s.assigns.getD i []) cp = Option.none ∧
      addGlyph ff i cp s = (Option.some s.counter,
        MState.mk (s.glyfs ++ [Glyph.mk [s.counter] g.gid])
          (s.assigns.set i ((s.assigns.getD i []) ++ [(cp, s.counter)]))
          s.sel (s.counter + 1))) := by
  cases hfind : ff.find cp with
  | nil =>
    left
    refine ⟨rfl, ?_⟩
    simp [addGlyph, hfind]
  | cons g gs =>
    cases hlook : lookupA (s.assigns.getD i []) cp with
    | some n =>
      right; left
      have hval : n ∈ MState.vals s := lookup_val_mem (by rw [hc.alen]; exact hi) hlook
      obtain ⟨hb1, hb2⟩ := hc.vals_mem n hval
      have hnz : n ≠ 0 := by omega
      refine ⟨n, rfl, hb1, hb2, ?_⟩
      simp only [addGlyph, hfind, hlook]
      rw [if_pos hnz]
    | none =>
      right; right
      refine ⟨g, gs, rfl, rfl, ?_⟩
      have hset : setA (s.assigns.getD i []) cp s.counter
          = (s.assigns.getD i []) ++ [(cp, s.counter)] := setA_append hlook
      simp only [addGlyph, hfind, hlook, hset]

/-- registerMapping preserves the core invariant when the registered codepoint
lies in the allocated range; only the selector map changes. -/
theorem registerMapping_core (base nffs ncp : Nat) (icon : Icon) (s : MState)
    (hc : MinifyCore base nffs s) (h1 : base ≤ ncp) (h2 : ncp < s.counter) :
    MinifyCore base nffs (registerMapping ncp icon s) := by
  refine ⟨hc.alen, hc.counter_eq, hc.glyf_uni, hc.keys_nodup, hc.vals_mem,
    hc.vals_cover, hc.vals_nodup, hc.count_eq, ?_, ?_⟩
  · intro p hp
    rcases pushSel_entry_shape s.sel ncp (toIconSelector icon) p hp with ⟨q, hq, hp1, hp2⟩ | hnew
    · obtain ⟨hq1, hq2, hq3⟩ := hc.sel_range q hq
      rcases hp2 with he | ⟨_, he⟩
      · exact ⟨he ▸ hq1, hp1 ▸ hq2, hp1 ▸ hq3⟩
      · refine ⟨?_, hp1 ▸ hq2, hp1 ▸ hq3⟩
        rw [he]
        simp
    · rw [hnew]
      exact ⟨by simp, h1, h2⟩
  · exact pushSel_keys_nodup s.sel ncp (toIconSelector icon) hc.sel_nodup

/-- registerMapping preserves glyph selector coverage. -/
theorem registerMapping_glyphSel (ncp : Nat) (icon : Icon) (s : MState)
    (hg : glyphSel s) : glyphSel (registerMapping ncp icon s) := by
  intro g hgm
  obtain ⟨p, hp, hu, hne⟩ := hg g hgm
  obtain ⟨x, hx⟩ := List.exists_mem_of_ne_nil p.2 hne
  obtain ⟨q, hq, hq1, hqx⟩ := pushSel_persist_elem ncp (toIconSelector icon) hp hx
  exact ⟨q, hq, by rw [hu, hq1], List.ne_nil_of_mem hqx⟩

/-- The register fold over a class list preserves the core invariant and
leaves glyphs, assignments, and the counter untouched. -/
theorem registerFold_core (base nffs ncp : Nat) (mkicon : String → Icon) :
    ∀ (cls : List String) (s : MState), MinifyCore base nffs s → base ≤ ncp → ncp < s.counter →
      MinifyCore base nffs (cls.foldl (fun st c => registerMapping ncp (mkicon c) st) s) ∧
      (cls.foldl (fun st c => registerMapping ncp (mkicon c) st) s).glyfs = s.glyfs ∧
      (cls.foldl (fun st c => registerMapping ncp (mkicon c) st) s).assigns = s.assigns ∧
      (cls.foldl (fun st c => registerMapping ncp (mkicon c) st) s).counter = s.counter := by
  intro cls
  induction cls with
  | nil =>
    intro s hc _ _
    exact ⟨hc, rfl, rfl, rfl⟩
  | cons c cs ih =>
    intro s hc hb1 hb2
    simp only [List.foldl_cons]
    have hc2 := registerMapping_core base nffs ncp (mkicon c) s hc hb1 hb2
    exact ih (registerMapping ncp (mkicon c) s) hc2 hb1 hb2

/-- The register fold preserves glyph selector coverage. -/
theorem registerFold_glyphSel (ncp : Nat) (mkicon : String → Icon) :
    ∀ (cls : List String) (s : MState), glyphSel s →
      glyphSel (cls.foldl (fun st c => registerMapping ncp (mkicon c) st) s) := by
  intro cls
  induction cls with
  | nil =>
    intro s hg
    exact hg
  | cons c cs ih =>
    intro s hg
    simp only [List.foldl_cons]
    exact ih _ (registerMapping_glyphSel ncp (mkicon c) s hg)

/-- Selector entries survive the register fold with their contents. -/
theorem registerFold_persist (ncp : Nat) (mkicon : String → Icon) :
    ∀ (cls : List String) (s : MState) (k : Nat) (x : String),
      (∃ p ∈ s.sel, p.1 = k ∧ x ∈ p.2) →
      ∃ p ∈ (cls.foldl (fun st c => registerMapping ncp (mkicon c) st) s).sel,
        p.1 = k ∧ x ∈ p.2 := by
  intro cls
  induction cls with
  | nil =>
    intro s k x h
    exact h
  | cons c cs ih =>
    intro s k x h
    obtain ⟨p, hp, h1, h2⟩ := h
    obtain ⟨q, hq, hq1, hq2⟩ := pushSel_persist_elem ncp (toIconSelector (mkicon c)) hp h2
    simp only [List.foldl_cons]
    exact ih _ k x ⟨q, hq, hq1.trans h1, hq2⟩

/-- After the register fold, every class in the list has its derived selector
stored under the registered codepoint. -/
theorem registerFold_targets (ncp : Nat) (mkicon : String → Icon) :
    ∀ (cls : List String) (s : MState) (c : String), c ∈ cls →
      ∃ p ∈ (cls.foldl (fun st cc => registerMapping ncp (mkicon cc) st) s).sel,
        p.1 = ncp ∧ toIconSelector (mkicon c) ∈ p.2 := by
  intro cls
  induction cls with
  | nil =>
    intro s c hc
    simp at hc
  | cons c0 cs ih =>
    intro s c hc
    simp only [List.foldl_cons]
    rcases List.mem_cons.mp hc with rfl | htail
    · obtain ⟨q, hq, hq1, hq2⟩ := pushSel_target s.sel ncp (toIconSelector (mkicon c))
      exact registerFold_persist ncp mkicon cs _ ncp _ ⟨q, hq, hq1, hq2⟩
    · exact ih _ c htail

/-- After a non-empty register fold, every glyph carrying the registered
codepoint is covered by a selector entry. -/
theorem registerFold_new_glyph (ncp : Nat) (mkicon : String → Icon)
    (cls : List String) (s : MState) (hne : cls ≠ []) :
    ∀ g : Glyph, g.unicode = [ncp] →
      ∃ p ∈ (cls.foldl (fun st c => registerMapping ncp (mkicon c) st) s).sel,
        g.unicode = [p.1] ∧ p.2 ≠ [] := by
  intro g hu
  cases cls with
  | nil => exact absurd rfl hne
  | cons c cs =>
    obtain ⟨p, hp, h1, h2⟩ := registerFold_targets ncp mkicon (c :: cs) s c (List.mem_cons_self _ _)
    exact ⟨p, hp, by rw [hu, h1], List.ne_nil_of_mem h2⟩

/-- Every selector present after the register fold is an old selector under
the same key or a derived selector of a listed class under the codepoint. -/
theorem registerFold_source (ncp : Nat) (mkicon : String → Icon) :
    ∀ (cls : List String) (s : MState),
      ∀ q ∈ (cls.foldl (fun st c => registerMapping ncp (mkicon c) st) s).sel, ∀ x ∈ q.2,
        (∃ p ∈ s.sel, p.1 = q.1 ∧ x ∈ p.2) ∨
        (q.1 = ncp ∧ ∃ c ∈ cls, x = toIconSelector (mkicon c)) := by
  intro cls
  induction cls with
  | nil =>
    intro s q hq x hx
    left
    exact ⟨q, hq, rfl, hx⟩
  | cons c cs ih =>
    intro s q hq x hx
    simp only [List.foldl_cons] at hq
    rcases ih (registerMapping ncp (mkicon c) s) q hq x hx with ⟨p, hp, h1, h2⟩ | ⟨h1, c2, hc2, h2⟩
    · rcases pushSel_source s.sel ncp (toIconSelector (mkicon c)) p hp x h2 with ⟨p0, hp0, h01, h02⟩ | ⟨hk, hxc⟩
      · left
        exact ⟨p0, hp0, h01.trans h1, h02⟩
      · right
        exact ⟨h1 ▸ hk, c, List.mem_cons_self _ _, hxc⟩
    · right
      exact ⟨h1, c2, List.mem_cons_of_mem _ hc2, h2⟩

/-- Every pair of an enumerated list carries a valid index and a member. -/
theorem mem_enumFrom {α : Type} :
    ∀ (n : Nat) (l : List α) (q : Nat × α), q ∈ enumFrom n l →
      n ≤ q.1 ∧ q.1 < n + l.length ∧ q.2 ∈ l := by
  intro n l
  induction l generalizing n with
  | nil =>
    intro q hq
    simp [enumFrom] at hq
  | cons a as ih =>
    intro q hq
    simp only [enumFrom, List.mem_cons] at hq
    rcases hq with rfl | hq
    · simp
    · obtain ⟨h1, h2, h3⟩ := ih (n + 1) q hq
      refine ⟨by omega, ?_, List.mem_cons_of_mem _ h3⟩
      simp only [List.length_cons]
      omega

/-- The head of a list, when present, is a member. -/
theorem mem_of_head?_eq {α : Type} {l : List α} {a : α} (h : l.head? = Option.some a) : a ∈ l := by
  cases l with
  | nil => simp at h
  | cons x xs =>
    simp only [List.head?_cons] at h
    rw [← Option.some.inj h]
    exact List.mem_cons_self _ _

/-- One direct resolution step (addGlyph then registerMapping on the original
icon) preserves the core invariant and the glyph selector coverage. -/
theorem resolveStep_inv (base nffs : Nat) (ff : FontFace) (i cp : Nat) (icon : Icon)
    (s s3 : MState) (ncp : Nat)
    (hc : MinifyCore base nffs s) (hb : 1 ≤ base) (hi : i < nffs)
    (hadd : addGlyph ff i cp s = (Option.some ncp, s3)) :
    MinifyCore base nffs (registerMapping ncp icon s3) ∧
    (glyphSel s → glyphSel (registerMapping ncp icon s3)) := by
  rcases addGlyph_spec base nffs ff i cp s hc hb hi with ⟨_, heq⟩ | ⟨n, hlook, h1, h2, heq⟩
    | ⟨g, gs, hfind, hlook, heq⟩
  · rw [hadd] at heq
    simp at heq
  · rw [hadd] at heq
    have hn : ncp = n := by
      have := congrArg Prod.fst heq
      simpa using this
    have hs : s3 = s := by
      have := congrArg Prod.snd heq
      simpa using this
    rw [hn, hs]
    exact ⟨registerMapping_core base nffs n icon s hc h1 h2,
      fun hg => registerMapping_glyphSel n icon s hg⟩
  · rw [hadd] at heq
    have hn : ncp = s.counter := by
      have := congrArg Prod.fst heq
      simpa using this
    have hs : s3 = MState.mk (s.glyfs ++ [Glyph.mk [s.counter] g.gid])
        (s.assigns.set i ((s.assigns.getD i []) ++ [(cp, s.counter)])) s.sel (s.counter + 1) := by
      have := congrArg Prod.snd heq
      simpa using this
    subst hn
    subst hs
    have hcore3 := allocFresh_core base nffs i cp g.gid s hc hi hlook
    have hr1 : base ≤ s.counter := by
      have := hc.counter_eq
      omega
    refine ⟨registerMapping_core base nffs s.counter icon _ hcore3 hr1
      (show s.counter < s.counter + 1 by omega), ?_⟩
    intro hg
    intro g2 hg2
    simp only [registerMapping] at hg2 ⊢
    rcases List.mem_append.mp hg2 with hold | hnew
    · obtain ⟨p, hp, hu, hne⟩ := hg g2 hold
      obtain ⟨x, hx⟩ := List.exists_mem_of_ne_nil p.2 hne
      obtain ⟨q, hq, hq1, hqx⟩ := pushSel_persist_elem s.counter (toIconSelector icon) hp hx
      exact ⟨q, hq, by rw [hu, hq1], List.ne_nil_of_mem hqx⟩
    · simp only [List.mem_singleton] at hnew
      subst hnew
      obtain ⟨q, hq, hq1, hqc⟩ := pushSel_target s.sel s.counter (toIconSelector icon)
      exact ⟨q, hq, by rw [hq1], List.ne_nil_of_mem hqc⟩

/-- One descriptor step of the fallback expansion preserves the core invariant,
and preserves glyph selector coverage when the descriptor has classes. -/
theorem fallbackStep_inv (base nffs cp : Nat) (icon : Icon) (s : MState) (q : Nat × FontFace)
    (hc : MinifyCore base nffs s) (hb : 1 ≤ base) (hq : q.1 < nffs) :
    MinifyCore base nffs (fallbackStep cp icon s q) ∧
    (q.2.clss ≠ [] → glyphSel s → glyphSel (fallbackStep cp icon s q)) := by
  rcases addGlyph_spec base nffs q.2 q.1 cp s hc hb hq with ⟨hfind, heq⟩ | ⟨n, hlook, h1, h2, heq⟩
    | ⟨g, gs, hfind, hlook, heq⟩
  · simp only [fallbackStep, heq]
    exact ⟨hc, fun _ hg => hg⟩
  · simp only [fallbackStep, heq]
    have hn0 : ¬ n = 0 := by omega
    rw [if_neg hn0]
    have hcore := registerFold_core base nffs n
      (fun c => Icon.mk icon.name (icon.modifiers ++ [c])) q.2.clss s hc h1 h2
    refine ⟨hcore.1, fun _ hg => ?_⟩
    exact registerFold_glyphSel n _ q.2.clss s hg
  · simp only [fallbackStep, heq]
    have hcnt0 : ¬ s.counter = 0 := by
      have := hc.counter_eq
      omega
    rw [if_neg hcnt0]
    have hcore3 := allocFresh_core base nffs q.1 cp g.gid s hc hq hlook
    have hr1 : base ≤ s.counter := by
      have := hc.counter_eq
      omega
    have hcore := registerFold_core base nffs s.counter
      (fun c => Icon.mk icon.name (icon.modifiers ++ [c])) q.2.clss _ hcore3 hr1
      (show s.counter < s.counter + 1 by omega)
    refine ⟨hcore.1, fun hclss hg => ?_⟩
    intro g2 hg2
    rw [hcore.2.1] at hg2
    rcases List.mem_append.mp hg2 with hold | hnew
    · obtain ⟨p, hp, hu, hne⟩ := hg g2 hold
      obtain ⟨x, hx⟩ := List.exists_mem_of_ne_nil p.2 hne
      obtain ⟨p2, hp2, h21, h22⟩ := registerFold_persist s.counter
        (fun c => Icon.mk icon.name (icon.modifiers ++ [c])) q.2.clss
        (MState.mk (s.glyfs ++ [Glyph.mk [s.counter] g.gid])
          (s.assigns.set q.1 ((s.assigns.getD q.1 []) ++ [(cp, s.counter)])) s.sel (s.counter + 1))
        p.1 x ⟨p, hp, rfl, hx⟩
      exact ⟨p2, hp2, by rw [hu, h21], List.ne_nil_of_mem h22⟩
    · simp only [List.mem_singleton] at hnew
      subst hnew
      exact registerFold_new_glyph s.counter
        (fun c => Icon.mk icon.name (icon.modifiers ++ [c])) q.2.clss
        (MState.mk (s.glyfs ++ [Glyph.mk [s.counter] g.gid])
          (s.assigns.set q.1 ((s.assigns.getD q.1 []) ++ [(cp, s.counter)])) s.sel (s.counter + 1))
        hclss _ rfl

/-- The fallback fold over an enumerated descriptor list preserves the core
invariant, and coverage when all listed descriptors have classes. -/
theorem foldFallback_inv (base nffs cp : Nat) (icon : Icon) :
    ∀ (L : List (Nat × FontFace)) (s : MState), MinifyCore base nffs s →
      1 ≤ base → (∀ q ∈ L, q.1 < nffs) →
      MinifyCore base nffs (L.foldl (fun st q => fallbackStep cp icon st q) s) ∧
      ((∀ q ∈ L, q.2.clss ≠ []) → glyphSel s →
        glyphSel (L.foldl (fun st q => fallbackStep cp icon st q) s)) := by
  intro L
  induction L with
  | nil =>
    intro s hc _ _
    exact ⟨hc, fun _ hg => hg⟩
  | cons q qs ih =>
    intro s hc hb hidx
    simp only [List.foldl_cons]
    have hstep := fallbackStep_inv base nffs cp icon s q hc hb (hidx q (List.mem_cons_self _ _))
    have hrest := ih (fallbackStep cp icon s q) hstep.1 hb
      (fun q2 hq2 => hidx q2 (List.mem_cons_of_mem _ hq2))
    refine ⟨hrest.1, fun hcl hg => ?_⟩
    exact hrest.2 (fun q2 hq2 => hcl q2 (List.mem_cons_of_mem _ hq2))
      (hstep.2 (hcl q (List.mem_cons_self _ _)) hg)

/-- One multi-variant icon step preserves the core invariant, and coverage
when every active descriptor has associated classes. -/
theorem processIconMulti_inv (base : Nat) (ffs : List FontFace) (itc : List (String × Nat))
    (icon : Icon) (s s2 : MState)
    (hc : MinifyCore base ffs.length s) (hb : 1 ≤ base)
    (hok : processIconMulti ffs itc s icon = Except.ok s2) :
    MinifyCore base ffs.length s2 ∧
    ((∀ ff ∈ ffs, ff.clss ≠ []) → glyphSel s → glyphSel s2) := by
  unfold processIconMulti at hok
  split at hok
  · simp at hok
  · rename_i cp hcp
    split at hok
    · simp at hok
    · rename_i hcp0
      split at hok
      · rename_i hhead
        have hs2 : fallbackExpand ffs cp icon s = s2 := by
          simpa using hok
        rw [← hs2]
        have hfold := foldFallback_inv base ffs.length cp icon (enumFrom 0 ffs) s hc hb
          (fun q hq => by simpa using (mem_enumFrom 0 ffs q hq).2.1)
        refine ⟨hfold.1, fun hcl hg => ?_⟩
        exact hfold.2 (fun q hq => hcl q.2 (mem_enumFrom 0 ffs q hq).2.2) hg
      · rename_i i ff hhead
        have hi : i < ffs.length := by
          have hmemf := mem_of_head?_eq hhead
          have hmem := List.mem_of_mem_filter hmemf
          simpa using (mem_enumFrom 0 ffs (i, ff) hmem).2.1
        split at hok
        · simp at hok
        · rename_i ncp s3 hadd
          split at hok
          · simp at hok
          · rename_i hn0
            have h2 : registerMapping ncp icon s3 = s2 := by
              simpa using hok
            rw [← h2]
            have hres := resolveStep_inv base ffs.length ff i cp icon s s3 ncp hc hb hi hadd
            exact ⟨hres.1, fun _ hg => hres.2 hg⟩

/-- One single-variant icon step preserves the core invariant and coverage. -/
theorem processIconSingle_inv (base nffs : Nat) (ff : FontFace) (itc : List (String × Nat))
    (icon : Icon) (s s2 : MState)
    (hc : MinifyCore base nffs s) (hb : 1 ≤ base) (h0 : 0 < nffs)
    (hok : processIconSingle ff itc s icon = Except.ok s2) :
    MinifyCore base nffs s2 ∧ (glyphSel s → glyphSel s2) := by
  unfold processIconSingle at hok
  split at hok
  · simp at hok
  · rename_i cp hcp
    split at hok
    · simp at hok
    · rename_i hcp0
      split at hok
      · simp at hok
      · rename_i ncp s3 hadd
        split at hok
        · simp at hok
        · rename_i hn0
          have h2 : registerMapping ncp icon s3 = s2 := by
            simpa using hok
          rw [← h2]
          exact resolveStep_inv base nffs ff 0 cp icon s s3 ncp hc hb h0 hadd

/-- Sequential icon processing preserves any property preserved by the step. -/
theorem runIcons_preserve (P : MState → Prop) (step : MState → Icon → Except String MState)
    (hstep : ∀ s icon s2, P s → step s icon = Except.ok s2 → P s2) :
    ∀ (icons : List Icon) (s s2 : MState), P s → runIcons step s icons = Except.ok s2 → P s2 := by
  intro icons
  induction icons with
  | nil =>
    intro s s2 hP h
    simp only [runIcons] at h
    rw [← Except.ok.inj h]
    exact hP
  | cons icon rest ih =>
    intro s s2 hP h
    simp only [runIcons] at h
    cases hs : step s icon with
    | error e =>
      rw [hs] at h
      simp at h
    | ok s3 =>
      rw [hs] at h
      exact ih s3 s2 (hstep s icon s3 hP hs) h

/-- The initial engine state satisfies the core invariant. -/
theorem initial_core (base nffs : Nat) :
    MinifyCore base nffs (MState.mk [] (List.replicate nffs []) [] base) := by
  have hflat : (List.replicate nffs ([] : List (Nat × Nat))).flatten = [] := by
    induction nffs with
    | zero => rfl
    | succ n ih => simpa [List.replicate_succ] using ih
  refine ⟨by simp, by simp, ?_, ?_, ?_, ?_, ?_, ?_, ?_, ?_⟩
  · intro j hj
    simp at hj
  · intro m hm
    rw [List.eq_of_mem_replicate hm]
    simp
  · intro v hv
    simp only [MState.vals, hflat] at hv
    simp at hv
  · intro v hv1 hv2
    have hv2b : v < base := hv2
    exact absurd hv2b (by omega)
  · simp only [MState.vals, hflat]
    simp
  · simp only [hflat]
    simp
  · intro p hp
    simp at hp
  · simp

/-- Master invariant of FontManager.minify: any successful run from a positive
base yields a state satisfying the core invariant, and full glyph selector
coverage when every active descriptor has at least one associated class. -/
theorem minifyState_invariant (ffs : List FontFace) (icons : List Icon)
    (itc : List (String × Nat)) (base : Nat) (s : MState)
    (hb : 1 ≤ base) (hok : minifyState ffs icons itc base = Except.ok s) :
    MinifyCore base ffs.length s ∧ ((∀ ff ∈ ffs, ff.clss ≠ []) → glyphSel s) := by
  unfold minifyState at hok
  by_cases hlen : ffs.length = 0
  · rw [if_pos hlen] at hok
    simp at hok
  · rw [if_neg hlen] at hok
    have hinit := initial_core base ffs.length
    have hginit : glyphSel (MState.mk [] (List.replicate ffs.length []) [] base) := by
      intro g hg
      simp at hg
    by_cases hmulti : 1 < ffs.length
    · rw [if_pos hmulti] at hok
      have := runIcons_preserve
        (fun st => MinifyCore base ffs.length st ∧ ((∀ ff ∈ ffs, ff.clss ≠ []) → glyphSel st))
        (fun st icon => processIconMulti ffs itc st icon)
        (fun s1 icon s2 hP hstep =>
          ⟨(processIconMulti_inv base ffs itc icon s1 s2 hP.1 hb hstep).1,
            fun hcl => (processIconMulti_inv base ffs itc icon s1 s2 hP.1 hb hstep).2 hcl (hP.2 hcl)⟩)
        icons _ s ⟨hinit, fun _ => hginit⟩ hok
      exact this
    · rw [if_neg hmulti] at hok
      have h0 : 0 < ffs.length := by omega
      have := runIcons_preserve
        (fun st => MinifyCore base ffs.length st ∧ ((∀ ff ∈ ffs, ff.clss ≠ []) → glyphSel st))
        (fun st icon => processIconSingle (ffs.headD (FontFace.mk [] [])) itc st icon)
        (fun s1 icon s2 hP hstep =>
          ⟨(processIconSingle_inv base ffs.length _ itc icon s1 s2 hP.1 hb h0 hstep).1,
            fun hcl => (processIconSingle_inv base ffs.length _ itc icon s1 s2 hP.1 hb h0 hstep).2 (hP.2 hcl)⟩)
        icons _ s ⟨hinit, fun _ => hginit⟩ hok
      exact this

/-- In an association list with duplicate-free keys, a key determines its value. -/
theorem assoc_nodup_unique {m : List (Nat × Nat)} (h : (m.map Prod.fst).Nodup) :
    ∀ k v1 v2, (k, v1) ∈ m → (k, v2) ∈ m → v1 = v2 := by
  induction m with
  | nil =>
    intro k v1 v2 h1
    simp at h1
  | cons p ps ih =>
    intro k v1 v2 h1 h2
    simp only [List.map_cons, List.nodup_cons] at h
    rcases List.mem_cons.mp h1 with e1 | h1m <;> rcases List.mem_cons.mp h2 with e2 | h2m
    · rw [← e1] at e2
      exact congrArg Prod.snd e2.symm
    · exfalso
      apply h.1
      have hk : p.1 = k := by rw [← e1]
      rw [hk]
      simpa using List.mem_map_of_mem Prod.fst h2m
    · exfalso
      apply h.1
      have hk : p.1 = k := by rw [← e2]
      rw [hk]
      simpa using List.mem_map_of_mem Prod.fst h1m
    · exact ih h.2 k v1 v2 h1m h2m

/-- Indexing with a default at a valid position gives the indexed element. -/
theorem getD_eq_elem_gen {α : Type} {L : List α} {i : Nat} (d : α) (h : i < L.length) :
    L.getD i d = L[i] := by
  simp [List.getD_eq_getElem?_getD, List.getElem?_eq_getElem h]

/-- Indexing with a default at a valid position gives a member. -/
theorem getD_mem_gen {α : Type} {L : List α} {i : Nat} (d : α) (h : i < L.length) :
    L.getD i d ∈ L := by
  rw [getD_eq_elem_gen d h]
  exact List.getElem_mem h

/-- The unicode fields of the packed glyph list enumerate the range upward
from the base, in order. -/
theorem glyfs_unicode_map (base : Nat) (gl : List Glyph)
    (hg : ∀ j, j < gl.length → (gl.getD j (Glyph.mk [] 0)).unicode = [base + j]) :
    gl.map Glyph.unicode = (List.range gl.length).map (fun j => [base + j]) := by
  apply List.ext_get?
  intro j
  rw [List.get?_eq_getElem?, List.get?_eq_getElem?]
  by_cases hj : j < gl.length
  · rw [List.getElem?_map, List.getElem?_map]
    rw [List.getElem?_eq_getElem hj, List.getElem?_eq_getElem (by simpa using hj)]
    simp only [Option.map_some']
    have hu := hg j hj
    rw [getD_eq_elem_gen _ hj] at hu
    rw [hu]
    congr 2
    simp
  · rw [List.getElem?_eq_none (by simpa using Nat.le_of_not_lt hj),
      List.getElem?_eq_none (by simpa using Nat.le_of_not_lt hj)]

/-- Counting members of a duplicate-free sublist inside a duplicate-free list
that contains them all gives the sublist length. -/
theorem countP_mem_eq_length {L vs : List Nat} (hL : L.Nodup) (hvs : vs.Nodup)
    (hsub : ∀ v ∈ vs, v ∈ L) :
    L.countP (fun v => decide (v ∈ vs)) = vs.length := by
  rw [List.countP_eq_length_filter]
  have hperm : List.Perm (L.filter (fun v => decide (v ∈ vs))) vs := by
    apply (List.perm_ext_iff_of_nodup (hL.filter _) hvs).mpr
    intro a
    simp only [List.mem_filter, decide_eq_true_eq]
    constructor
    · intro h
      exact h.2
    · intro h
      exact ⟨hsub a h, h⟩
  exact hperm.length_eq

/-- Under the core invariant, the glyphs carrying a codepoint of descriptor i
are counted exactly once per entry of its per-descriptor map. -/
theorem descriptor_glyph_count (base nffs : Nat) (s : MState)
    (hc : MinifyCore base nffs s) (i : Nat) (hi : i < s.assigns.length) :
    s.glyfs.countP (fun g => (s.assigns.getD i []).any (fun p => g.unicode == [p.2]))
      = (s.assigns.getD i []).length := by
  have hmemA : s.assigns.getD i [] ∈ s.assigns := getD_mem_of_lt hi
  have hsubl := List.sublist_flatten_of_mem hmemA
  have hvsnodup : ((s.assigns.getD i []).map Prod.snd).Nodup :=
    List.Nodup.sublist (hsubl.map Prod.snd) hc.vals_nodup
  have hbounds : ∀ v ∈ (s.assigns.getD i []).map Prod.snd, base ≤ v ∧ v < base + s.glyfs.length := by
    intro v hv
    have hvv : v ∈ MState.vals s := ((hsubl.map Prod.snd).subset) hv
    have := hc.vals_mem v hvv
    have hce := hc.counter_eq
    omega
  have h1 : s.glyfs.countP (fun g => (s.assigns.getD i []).any (fun p => g.unicode == [p.2]))
      = (s.glyfs.map Glyph.unicode).countP
          (fun u => (s.assigns.getD i []).any (fun p => u == [p.2])) :=
    (List.countP_map (fun u => (s.assigns.getD i []).any (fun p => u == [p.2]))
      Glyph.unicode s.glyfs).symm
  rw [h1, glyfs_unicode_map base s.glyfs hc.glyf_uni]
  have h2 : ((List.range s.glyfs.length).map (fun j => [base + j])).countP
        (fun u => (s.assigns.getD i []).any (fun p => u == [p.2]))
      = (List.range s.glyfs.length).countP
          (fun j => (s.assigns.getD i []).any (fun p => ([base + j] : List Nat) == [p.2])) :=
    List.countP_map (fun u => (s.assigns.getD i []).any (fun p => u == [p.2]))
      (fun j => [base + j]) (List.range s.glyfs.length)
  rw [h2]
  have h3 : (List.range s.glyfs.length).countP
        (fun j => (s.assigns.getD i []).any (fun p => ([base + j] : List Nat) == [p.2]))
      = (List.range s.glyfs.length).countP
          (fun j => decide ((base + j) ∈ (s.assigns.getD i []).map Prod.snd)) := by
    apply List.countP_congr
    intro j _
    by_cases hmem : (base + j) ∈ (s.assigns.getD i []).map Prod.snd
    · have hl : ((s.assigns.getD i []).any fun p => ([base + j] : List Nat) == [p.2]) = true := by
        obtain ⟨p, hp, hpe⟩ := List.mem_map.mp hmem
        exact List.any_eq_true.mpr ⟨p, hp, by rw [beq_iff_eq, hpe]⟩
      rw [hl, decide_eq_true hmem]
    · have hl : ((s.assigns.getD i []).any fun p => ([base + j] : List Nat) == [p.2]) = false := by
        rw [List.any_eq_false]
        intro p hp hcon
        apply hmem
        have hbj : base + j = p.2 := by
          simpa using beq_iff_eq.mp hcon
        rw [hbj]
        exact List.mem_map_of_mem Prod.snd hp
      rw [hl, decide_eq_false hmem]
  rw [h3]
  have h4 : (List.range s.glyfs.length).countP
        (fun j => decide ((base + j) ∈ (s.assigns.getD i []).map Prod.snd))
      = (List.range' base s.glyfs.length).countP
          (fun v => decide (v ∈ (s.assigns.getD i []).map Prod.snd)) := by
    rw [List.range'_eq_map_range]
    exact (List.countP_map (fun v => decide (v ∈ (s.assigns.getD i []).map Prod.snd))
      (fun x => base + x) (List.range s.glyfs.length)).symm
  rw [h4]
  rw [countP_mem_eq_length (List.nodup_range' base s.glyfs.length) hvsnodup ?_]
  · exact List.length_map _ _
  · intro v hv
    rw [List.mem_range'_1]
    exact hbounds v hv

/-- C1: in any successful run of the subsetting engine from a positive base,
each per-descriptor map assigns exactly one new codepoint per legacy codepoint
(no matter how many Icons requested it), the packed glyph count equals the
total number of distinct legacy codepoints assigned across descriptors, and
per descriptor the packed glyphs carrying its new codepoints number exactly
its distinct assigned legacy codepoints. -/
theorem claim_C1_dedup (ffs : List FontFace) (icons : List Icon) (itc : List (String × Nat))
    (base : Nat) (s : MState) (hb : 1 ≤ base)
    (hok : minifyState ffs icons itc base = Except.ok s) :
    (∀ m ∈ s.assigns, ∀ k v1 v2, (k, v1) ∈ m → (k, v2) ∈ m → v1 = v2) ∧
    s.glyfs.length = (s.assigns.map List.length).sum ∧
    (∀ i, i < s.assigns.length →
      s.glyfs.countP (fun g => (s.assigns.getD i []).any (fun p => g.unicode == [p.2]))
        = (s.assigns.getD i []).length) := by
  obtain ⟨hcore, _⟩ := minifyState_invariant ffs icons itc base s hb hok
  refine ⟨?_, ?_, ?_⟩
  · intro m hm
    exact assoc_nodup_unique (hcore.keys_nodup m hm)
  · rw [hcore.count_eq]
    exact List.length_flatten s.assigns
  · intro i hi
    exact descriptor_glyph_count base ffs.length s hcore i hi

/-- C1 witness: a concrete single-descriptor run. -/
theorem claim_C1_witness :
    (∀ m ∈ (MState.mk [Glyph.mk [1] 0] [[(5, 1)]] [(1, [".fa-home.fa"])] 2).assigns,
      ∀ k v1 v2, (k, v1) ∈ m → (k, v2) ∈ m → v1 = v2) ∧
    (MState.mk [Glyph.mk [1] 0] [[(5, 1)]] [(1, [".fa-home.fa"])] 2).glyfs.length
      = ((MState.mk [Glyph.mk [1] 0] [[(5, 1)]] [(1, [".fa-home.fa"])] 2).assigns.map List.length).sum ∧
    (∀ i, i < (MState.mk [Glyph.mk [1] 0] [[(5, 1)]] [(1, [".fa-home.fa"])] 2).assigns.length →
      (MState.mk [Glyph.mk [1] 0] [[(5, 1)]] [(1, [".fa-home.fa"])] 2).glyfs.countP
          (fun g => ((MState.mk [Glyph.mk [1] 0] [[(5, 1)]] [(1, [".fa-home.fa"])] 2).assigns.getD i []).any
            (fun p => g.unicode == [p.2]))
        = ((MState.mk [Glyph.mk [1] 0] [[(5, 1)]] [(1, [".fa-home.fa"])] 2).assigns.getD i []).length) :=
  claim_C1_dedup [FontFace.mk ["fa"] [Glyph.mk [5] 0]] [Icon.mk "fa-home" ["fa"]]
    [("fa-home", 5)] 1 (MState.mk [Glyph.mk [1] 0] [[(5, 1)]] [(1, [".fa-home.fa"])] 2)
    (by decide) (by rfl)

/-- C7: in any successful run from a positive base, the new codepoints come
from the single shared counter seeded at the base: the final counter is the
base plus the glyph count, the j-th packed glyph carries exactly codepoint
base plus j, and the recorded new codepoints are pairwise distinct and form
exactly the consecutive range from the base up to the final counter. -/
theorem claim_C7_counter_range (ffs : List FontFace) (icons : List Icon)
    (itc : List (String × Nat)) (base : Nat) (s : MState) (hb : 1 ≤ base)
    (hok : minifyState ffs icons itc base = Except.ok s) :
    s.counter = base + s.glyfs.length ∧
    (∀ j, j < s.glyfs.length → (s.glyfs.getD j (Glyph.mk [] 0)).unicode = [base + j]) ∧
    (MState.vals s).Nodup ∧
    (∀ v, v ∈ MState.vals s ↔ (base ≤ v ∧ v < s.counter)) := by
  obtain ⟨hcore, _⟩ := minifyState_invariant ffs icons itc base s hb hok
  refine ⟨hcore.counter_eq, hcore.glyf_uni, hcore.vals_nodup, fun v => ?_⟩
  constructor
  · exact hcore.vals_mem v
  · intro h
    exact hcore.vals_cover v h.1 h.2

/-- C7 witness: a concrete two-descriptor run with fallback expansion, where
the counter walks 10, 11, 12 across both descriptors. -/
theorem claim_C7_witness :
    (MState.mk [Glyph.mk [10] 0, Glyph.mk [11] 2, Glyph.mk [12] 1]
        [[(5, 10), (7, 12)], [(5, 11)]]
        [(10, [".fa-star.fab"]), (11, [".fa-star.fas"]), (12, [".fa-google.fab"])] 13).counter
      = 10 + (MState.mk [Glyph.mk [10] 0, Glyph.mk [11] 2, Glyph.mk [12] 1]
        [[(5, 10), (7, 12)], [(5, 11)]]
        [(10, [".fa-star.fab"]), (11, [".fa-star.fas"]), (12, [".fa-google.fab"])] 13).glyfs.length ∧
    (∀ j, j < (MState.mk [Glyph.mk [10] 0, Glyph.mk [11] 2, Glyph.mk [12] 1]
        [[(5, 10), (7, 12)], [(5, 11)]]
        [(10, [".fa-star.fab"]), (11, [".fa-star.fas"]), (12, [".fa-google.fab"])] 13).glyfs.length →
      ((MState.mk [Glyph.mk [10] 0, Glyph.mk [11] 2, Glyph.mk [12] 1]
        [[(5, 10), (7, 12)], [(5, 11)]]
        [(10, [".fa-star.fab"]), (11, [".fa-star.fas"]), (12, [".fa-google.fab"])] 13).glyfs.getD j
          (Glyph.mk [] 0)).unicode = [10 + j]) ∧
    (MState.vals (MState.mk [Glyph.mk [10] 0, Glyph.mk [11] 2, Glyph.mk [12] 1]
        [[(5, 10), (7, 12)], [(5, 11)]]
        [(10, [".fa-star.fab"]), (11, [".fa-star.fas"]), (12, [".fa-google.fab"])] 13)).Nodup ∧
    (∀ v, v ∈ MState.vals (MState.mk [Glyph.mk [10] 0, Glyph.mk [11] 2, Glyph.mk [12] 1]
        [[(5, 10), (7, 12)], [(5, 11)]]
        [(10, [".fa-star.fab"]), (11, [".fa-star.fas"]), (12, [".fa-google.fab"])] 13) ↔
      (10 ≤ v ∧ v < (MState.mk [Glyph.mk [10] 0, Glyph.mk [11] 2, Glyph.mk [12] 1]
        [[(5, 10), (7, 12)], [(5, 11)]]
        [(10, [".fa-star.fab"]), (11, [".fa-star.fas"]), (12, [".fa-google.fab"])] 13).counter)) :=
  claim_C7_counter_range
    [FontFace.mk ["fab"] [Glyph.mk [5] 0, Glyph.mk [7] 1], FontFace.mk ["fas"] [Glyph.mk [5] 2]]
    [Icon.mk "fa-star" [], Icon.mk "fa-google" ["fab"]]
    [("fa-star", 5), ("fa-google", 7)] 10
    (MState.mk [Glyph.mk [10] 0, Glyph.mk [11] 2, Glyph.mk [12] 1]
      [[(5, 10), (7, 12)], [(5, 11)]]
      [(10, [".fa-star.fab"]), (11, [".fa-star.fas"]), (12, [".fa-google.fab"])] 13)
    (by decide) (by rfl)

/-- C2: after any successful run of FontManager.minify from a positive base
with every active descriptor carrying at least one associated class, every key
of the returned selector-group map has a non-empty selector list and a glyph
in the returned packed list carrying exactly that codepoint, and conversely
every packed glyph has its codepoint as a selector-group key with a non-empty
selector list. -/
theorem claim_C2_roundtrip (ffs : List FontFace) (icons : List Icon) (itc : List (String × Nat))
    (base : Nat) (out : List Glyph × List (Nat × List String))
    (hb : 1 ≤ base) (hcl : ∀ ff ∈ ffs, ff.clss ≠ [])
    (hok : FontManager.minify ffs icons itc base = Except.ok out) :
    (∀ p ∈ out.2, p.2 ≠ [] ∧ ∃ g ∈ out.1, g.unicode = [p.1]) ∧
    (∀ g ∈ out.1, ∃ p ∈ out.2, g.unicode = [p.1] ∧ p.2 ≠ []) := by
  unfold FontManager.minify at hok
  cases hms : minifyState ffs icons itc base with
  | error e =>
    rw [hms] at hok
    simp [Except.map] at hok
  | ok s =>
    rw [hms] at hok
    simp only [Except.map] at hok
    have hout : out = (s.glyfs, s.sel) := (Except.ok.inj hok).symm
    subst hout
    obtain ⟨hcore, hgs⟩ := minifyState_invariant ffs icons itc base s hb hms
    constructor
    · intro p hp
      obtain ⟨hne, h1, h2⟩ := hcore.sel_range p hp
      refine ⟨hne, ?_⟩
      have hce := hcore.counter_eq
      have hj : p.1 - base < s.glyfs.length := by omega
      refine ⟨s.glyfs.getD (p.1 - base) (Glyph.mk [] 0), getD_mem_gen _ hj, ?_⟩
      rw [hcore.glyf_uni _ hj]
      congr 1
      omega
    · intro g hg
      exact hgs hcl g hg

/-- C2 witness: the concrete single-descriptor run, through the returned pair. -/
theorem claim_C2_witness :
    (∀ p ∈ (([Glyph.mk [1] 0], [(1, [".fa-home.fa"])]) : List Glyph × List (Nat × List String)).2,
      p.2 ≠ [] ∧ ∃ g ∈ (([Glyph.mk [1] 0], [(1, [".fa-home.fa"])]) : List Glyph × List (Nat × List String)).1,
        g.unicode = [p.1]) ∧
    (∀ g ∈ (([Glyph.mk [1] 0], [(1, [".fa-home.fa"])]) : List Glyph × List (Nat × List String)).1,
      ∃ p ∈ (([Glyph.mk [1] 0], [(1, [".fa-home.fa"])]) : List Glyph × List (Nat × List String)).2,
        g.unicode = [p.1] ∧ p.2 ≠ []) :=
  claim_C2_roundtrip [FontFace.mk ["fa"] [Glyph.mk [5] 0]] [Icon.mk "fa-home" ["fa"]]
    [("fa-home", 5)] 1 ([Glyph.mk [1] 0], [(1, [".fa-home.fa"])])
    (by decide) (by decide) (by rfl)

/-- Setting another bucket leaves the indexed bucket alone. -/
theorem getD_set_ne {β : Type} (L : List (List β)) (j i : Nat) (x : List β) (h : j ≠ i) :
    (L.set j x).getD i [] = L.getD i [] := by
  simp [List.getD_eq_getElem?_getD, List.getElem?_set_ne h]

/-- Setting the indexed bucket stores the new bucket. -/
theorem getD_set_self {β : Type} (L : List (List β)) (i : Nat) (x : List β) (h : i < L.length) :
    (L.set i x).getD i [] = x := by
  simp [List.getD_eq_getElem?_getD, List.getElem?_set_self h]

/-- The register fold leaves everything except the selector map unchanged. -/
theorem registerFold_frame (ncp : Nat) (mkicon : String → Icon) :
    ∀ (cls : List String) (s : MState),
      (cls.foldl (fun st c => registerMapping ncp (mkicon c) st) s).assigns = s.assigns ∧
      (cls.foldl (fun st c => registerMapping ncp (mkicon c) st) s).glyfs = s.glyfs ∧
      (cls.foldl (fun st c => registerMapping ncp (mkicon c) st) s).counter = s.counter := by
  intro cls
  induction cls with
  | nil =>
    intro s
    exact ⟨rfl, rfl, rfl⟩
  | cons c cs ih =>
    intro s
    simp only [List.foldl_cons]
    exact ih (registerMapping ncp (mkicon c) s)

/-- A fallback step for another descriptor, or for a descriptor lacking the
glyph, leaves the indexed per-descriptor map alone. -/
theorem fallbackStep_assigns_other (cp : Nat) (icon : Icon) (s : MState) (q : Nat × FontFace)
    (i : Nat) (h : q.1 ≠ i ∨ q.2.find cp = []) :
    (fallbackStep cp icon s q).assigns.getD i [] = s.assigns.getD i [] := by
  cases hfind : q.2.find cp with
  | nil =>
    simp only [fallbackStep, addGlyph, hfind]
  | cons g gs =>
    have hne : q.1 ≠ i := by
      rcases h with hne | hempty
      · exact hne
      · rw [hempty] at hfind
        simp at hfind
    cases hlook : lookupA (s.assigns.getD q.1 []) cp with
    | some n =>
      by_cases hn : n ≠ 0
      · simp only [fallbackStep, addGlyph, hfind, hlook]
        rw [if_pos hn]
        simp only []
        rw [if_neg hn]
        exact (registerFold_frame n _ q.2.clss s).1 ▸ rfl
      · push_neg at hn
        simp only [fallbackStep, addGlyph, hfind, hlook]
        rw [if_neg (by omega : ¬ n ≠ 0)]
        simp only []
        by_cases hcnt : s.counter = 0
        · rw [if_pos hcnt]
          exact getD_set_ne s.assigns q.1 i _ hne
        · rw [if_neg hcnt]
          rw [(registerFold_frame s.counter _ q.2.clss _).1]
          exact getD_set_ne s.assigns q.1 i _ hne
    | none =>
      simp only [fallbackStep, addGlyph, hfind, hlook]
      by_cases hcnt : s.counter = 0
      · rw [if_pos hcnt]
        exact getD_set_ne s.assigns q.1 i _ hne
      · rw [if_neg hcnt]
        rw [(registerFold_frame s.counter _ q.2.clss _).1]
        exact getD_set_ne s.assigns q.1 i _ hne

/-- The fallback fold leaves a per-descriptor map alone when every listed step
concerns another descriptor or a descriptor lacking the glyph. -/
theorem foldFallback_assigns_other (cp : Nat) (icon : Icon) (i : Nat) :
    ∀ (L : List (Nat × FontFace)) (s : MState),
      (∀ q ∈ L, q.1 ≠ i ∨ q.2.find cp = []) →
      ((L.foldl (fun st q => fallbackStep cp icon st q) s).assigns.getD i [])
        = s.assigns.getD i [] := by
  intro L
  induction L with
  | nil =>
    intro s _
    rfl
  | cons q qs ih =>
    intro s hcond
    simp only [List.foldl_cons]
    rw [ih (fallbackStep cp icon s q) (fun q2 hq2 => hcond q2 (List.mem_cons_of_mem _ hq2))]
    exact fallbackStep_assigns_other cp icon s q i (hcond q (List.mem_cons_self _ _))

/-- Selector entries survive one fallback step with their contents. -/
theorem fallbackStep_sel_persist (cp : Nat) (icon : Icon) (s : MState) (q : Nat × FontFace)
    (k : Nat) (x : String) (h : ∃ p ∈ s.sel, p.1 = k ∧ x ∈ p.2) :
    ∃ p ∈ (fallbackStep cp icon s q).sel, p.1 = k ∧ x ∈ p.2 := by
  cases hfind : q.2.find cp with
  | nil =>
    simpa only [fallbackStep, addGlyph, hfind] using h
  | cons g gs =>
    cases hlook : lookupA (s.assigns.getD q.1 []) cp with
    | some n =>
      by_cases hn : n ≠ 0
      · simp only [fallbackStep, addGlyph, hfind, hlook]
        rw [if_pos hn]
        simp only []
        rw [if_neg (by omega : ¬ n = 0)]
        exact registerFold_persist n _ q.2.clss s k x h
      · push_neg at hn
        simp only [fallbackStep, addGlyph, hfind, hlook]
        rw [if_neg (by omega : ¬ n ≠ 0)]
        simp only []
        by_cases hcnt : s.counter = 0
        · rw [if_pos hcnt]
          exact h
        · rw [if_neg hcnt]
          exact registerFold_persist s.counter _ q.2.clss _ k x h
    | none =>
      simp only [fallbackStep, addGlyph, hfind, hlook]
      by_cases hcnt : s.counter = 0
      · rw [if_pos hcnt]
        exact h
      · rw [if_neg hcnt]
        exact registerFold_persist s.counter _ q.2.clss _ k x h

/-- Selector entries survive the fallback fold with their contents. -/
theorem foldFallback_sel_persist (cp : Nat) (icon : Icon) :
    ∀ (L : List (Nat × FontFace)) (s : MState) (k : Nat) (x : String),
      (∃ p ∈ s.sel, p.1 = k ∧ x ∈ p.2) →
      ∃ p ∈ (L.foldl (fun st q => fallbackStep cp icon st q) s).sel, p.1 = k ∧ x ∈ p.2 := by
  intro L
  induction L with
  | nil =>
    intro s k x h
    exact h
  | cons q qs ih =>
    intro s k x h
    simp only [List.foldl_cons]
    exact ih _ k x (fallbackStep_sel_persist cp icon s q k x h)

/-- Every enumerated pair locates a list element at its index. -/
theorem mem_enumFrom_get {α : Type} :
    ∀ (n : Nat) (l : List α) (q : Nat × α), q ∈ enumFrom n l →
      ∃ k, q.1 = n + k ∧ l[k]? = Option.some q.2 := by
  intro n l
  induction l generalizing n with
  | nil =>
    intro q hq
    simp [enumFrom] at hq
  | cons a as ih =>
    intro q hq
    simp only [enumFrom, List.mem_cons] at hq
    rcases hq with rfl | hq
    · exact ⟨0, by simp, by simp⟩
    · obtain ⟨k, h1, h2⟩ := ih (n + 1) q hq
      exact ⟨k + 1, by omega, by simpa using h2⟩

/-- An element at a given index splits the enumerated list into a prefix of
smaller indices and a suffix of larger indices around its pair. -/
theorem enumFrom_split {α : Type} :
    ∀ (l : List α) (n k : Nat) (x : α), l[k]? = Option.some x →
      ∃ L1 L2, enumFrom n l = L1 ++ (n + k, x) :: L2 ∧
        (∀ q ∈ L1, q.1 < n + k) ∧ (∀ q ∈ L2, n + k < q.1) := by
  intro l
  induction l with
  | nil =>
    intro n k x h
    simp at h
  | cons a as ih =>
    intro n k x h
    cases k with
    | zero =>
      simp only [List.getElem?_cons_zero, Option.some.injEq] at h
      subst h
      refine ⟨[], enumFrom (n + 1) as, by simp [enumFrom], by simp, ?_⟩
      intro q hq
      have := (mem_enumFrom (n + 1) as q hq).1
      omega
    | succ k0 =>
      simp only [List.getElem?_cons_succ] at h
      obtain ⟨L1, L2, heq, h1, h2⟩ := ih (n + 1) k0 x h
      have harith : n + 1 + k0 = n + (k0 + 1) := by omega
      refine ⟨(n, a) :: L1, L2, ?_, ?_, ?_⟩
      · simp only [enumFrom, heq, List.cons_append]
        rw [harith]
      · intro q hq
        rcases List.mem_cons.mp hq with rfl | hq2
        · show n < n + (k0 + 1)
          omega
        · have := h1 q hq2
          omega
      · intro q hq
        have := h2 q hq
        omega

/-- A fallback step for a descriptor carrying the glyph records a nonzero new
codepoint for the pair and stores every derived selector under it. -/
theorem fallbackStep_establishes (base nffs cp : Nat) (icon : Icon) (s : MState)
    (i : Nat) (ffi : FontFace) (hc : MinifyCore base nffs s) (hb : 1 ≤ base)
    (hi : i < nffs) (hfind : ffi.find cp ≠ []) :
    ∃ ncp, ncp ≠ 0 ∧
      lookupA ((fallbackStep cp icon s (i, ffi)).assigns.getD i []) cp = Option.some ncp ∧
      ∀ cls ∈ ffi.clss,
        ∃ p ∈ (fallbackStep cp icon s (i, ffi)).sel, p.1 = ncp ∧
          toIconSelector (Icon.mk icon.name (icon.modifiers ++ [cls])) ∈ p.2 := by
  rcases addGlyph_spec base nffs ffi i cp s hc hb hi with ⟨hf0, _⟩ | ⟨n, hlook, h1, h2, heq⟩
    | ⟨g, gs, hf, hlook, heq⟩
  · exact absurd hf0 hfind
  · refine ⟨n, by omega, ?_, ?_⟩
    · simp only [fallbackStep, heq]
      rw [if_neg (by omega : ¬ n = 0)]
      rw [(registerFold_frame n _ ffi.clss s).1]
      exact hlook
    · intro cls hcls
      simp only [fallbackStep, heq]
      rw [if_neg (by omega : ¬ n = 0)]
      exact registerFold_targets n (fun c => Icon.mk icon.name (icon.modifiers ++ [c]))
        ffi.clss s cls hcls
  · have hcnt0 : ¬ s.counter = 0 := by
      have := hc.counter_eq
      omega
    have hlen : i < s.assigns.length := by
      rw [hc.alen]
      exact hi
    refine ⟨s.counter, hcnt0, ?_, ?_⟩
    · simp only [fallbackStep, heq]
      rw [if_neg hcnt0]
      rw [(registerFold_frame s.counter _ ffi.clss _).1]
      have hmid : (MState.mk (s.glyfs ++ [Glyph.mk [s.counter] g.gid])
          (s.assigns.set i ((s.assigns.getD i []) ++ [(cp, s.counter)]))
          s.sel (s.counter + 1)).assigns.getD i []
          = (s.assigns.getD i []) ++ [(cp, s.counter)] :=
        getD_set_self s.assigns i _ hlen
      rw [hmid]
      exact lookupA_append_self hlook
    · intro cls hcls
      simp only [fallbackStep, heq]
      rw [if_neg hcnt0]
      exact registerFold_targets s.counter (fun c => Icon.mk icon.name (icon.modifiers ++ [c]))
        ffi.clss _ cls hcls

/-- Every selector present after one fallback step is an old selector under
the same key or a derived selector of a class of a descriptor carrying the
glyph. -/
theorem fallbackStep_sel_source (cp : Nat) (icon : Icon) (s : MState) (q : Nat × FontFace) :
    ∀ p ∈ (fallbackStep cp icon s q).sel, ∀ x ∈ p.2,
      (∃ p0 ∈ s.sel, p0.1 = p.1 ∧ x ∈ p0.2) ∨
      (q.2.find cp ≠ [] ∧ ∃ cls ∈ q.2.clss,
        x = toIconSelector (Icon.mk icon.name (icon.modifiers ++ [cls]))) := by
  intro p hp x hx
  cases hfind : q.2.find cp with
  | nil =>
    left
    refine ⟨p, ?_, rfl, hx⟩
    simpa only [fallbackStep, addGlyph, hfind] using hp
  | cons g gs =>
    cases hlook : lookupA (s.assigns.getD q.1 []) cp with
    | some n =>
      by_cases hn : n ≠ 0
      · simp only [fallbackStep, addGlyph, hfind, hlook] at hp
        rw [if_pos hn] at hp
        simp only [] at hp
        rw [if_neg hn] at hp
        rcases registerFold_source n _ q.2.clss s p hp x hx with ⟨p0, hp0, h1, h2⟩
          | ⟨h1, c, hc, h2⟩
        · left
          exact ⟨p0, hp0, h1, h2⟩
        · right
          exact ⟨by simp, c, hc, h2⟩
      · push_neg at hn
        simp only [fallbackStep, addGlyph, hfind, hlook] at hp
        rw [if_neg (by omega : ¬ n ≠ 0)] at hp
        simp only [] at hp
        by_cases hcnt : s.counter = 0
        · rw [if_pos hcnt] at hp
          left
          exact ⟨p, hp, rfl, hx⟩
        · rw [if_neg hcnt] at hp
          rcases registerFold_source s.counter _ q.2.clss _ p hp x hx with ⟨p0, hp0, h1, h2⟩
            | ⟨h1, c, hc, h2⟩
          · left
            exact ⟨p0, hp0, h1, h2⟩
          · right
            exact ⟨by simp, c, hc, h2⟩
    | none =>
      simp only [fallbackStep, addGlyph, hfind, hlook] at hp
      by_cases hcnt : s.counter = 0
      · rw [if_pos hcnt] at hp
        left
        exact ⟨p, hp, rfl, hx⟩
      · rw [if_neg hcnt] at hp
        rcases registerFold_source s.counter _ q.2.clss _ p hp x hx with ⟨p0, hp0, h1, h2⟩
          | ⟨h1, c, hc, h2⟩
        · left
          exact ⟨p0, hp0, h1, h2⟩
        · right
          exact ⟨by simp, c, hc, h2⟩

/-- Every selector present after the fallback fold is an old selector under
the same key or a derived selector contributed by a listed descriptor carrying
the glyph. -/
theorem foldFallback_sel_source (cp : Nat) (icon : Icon) :
    ∀ (L : List (Nat × FontFace)) (s : MState),
      ∀ p ∈ (L.foldl (fun st q => fallbackStep cp icon st q) s).sel, ∀ x ∈ p.2,
        (∃ p0 ∈ s.sel, p0.1 = p.1 ∧ x ∈ p0.2) ∨
        (∃ q ∈ L, q.2.find cp ≠ [] ∧ ∃ cls ∈ q.2.clss,
          x = toIconSelector (Icon.mk icon.name (icon.modifiers ++ [cls]))) := by
  intro L
  induction L with
  | nil =>
    intro s p hp x hx
    left
    exact ⟨p, hp, rfl, hx⟩
  | cons q qs ih =>
    intro s p hp x hx
    simp only [List.foldl_cons] at hp
    rcases ih (fallbackStep cp icon s q) p hp x hx with ⟨p0, hp0, h1, h2⟩
      | ⟨q2, hq2, hf, c, hc, hx2⟩
    · rcases fallbackStep_sel_source cp icon s q p0 hp0 x h2 with ⟨p1, hp1, h11, h12⟩
        | ⟨hf, c, hc, hx2⟩
      · left
        exact ⟨p1, hp1, h11.trans h1, h12⟩
      · right
        exact ⟨q, List.mem_cons_self _ _, hf, c, hc, hx2⟩
    · right
      exact ⟨q2, List.mem_cons_of_mem _ hq2, hf, c, hc, hx2⟩

/-- C6: in the multi-descriptor case, an icon whose modifiers intersect no
active descriptor falls back to expansion without error: each descriptor
carrying a glyph at the legacy codepoint gets a nonzero new codepoint recorded
for the (descriptor, legacy codepoint) pair and, for each of its associated
classes, the derived icon selector (original modifiers plus that class) stored
under the new codepoint; a descriptor lacking the glyph keeps its map unchanged
and contributes no selector, every new selector being derived from a class of
some descriptor carrying the glyph. -/
theorem claim_C6_fallback_expansion (ffs : List FontFace) (itc : List (String × Nat))
    (icon : Icon) (base cp : Nat) (s : MState)
    (hc : MinifyCore base ffs.length s) (hb : 1 ≤ base)
    (hcp : lookupS itc icon.name = Option.some cp) (hcp0 : cp ≠ 0)
    (hnone : ((enumFrom 0 ffs).filter (fun q => hasIntersection q.2 icon)).head?
      = Option.none) :
    processIconMulti ffs itc s icon = Except.ok (fallbackExpand ffs cp icon s) ∧
    (∀ i ffi, ffs[i]? = Option.some ffi → ffi.find cp = [] →
      (fallbackExpand ffs cp icon s).assigns.getD i [] = s.assigns.getD i []) ∧
    (∀ i ffi, ffs[i]? = Option.some ffi → ffi.find cp ≠ [] →
      ∃ ncp, ncp ≠ 0 ∧
        lookupA ((fallbackExpand ffs cp icon s).assigns.getD i []) cp = Option.some ncp ∧
        ∀ cls ∈ ffi.clss,
          ∃ p ∈ (fallbackExpand ffs cp icon s).sel, p.1 = ncp ∧
            toIconSelector (Icon.mk icon.name (icon.modifiers ++ [cls])) ∈ p.2) ∧
    (∀ p ∈ (fallbackExpand ffs cp icon s).sel, ∀ x ∈ p.2,
      (∃ p0 ∈ s.sel, p0.1 = p.1 ∧ x ∈ p0.2) ∨
      (∃ (j : Nat) (ffj : FontFace), ffs[j]? = Option.some ffj ∧ ffj.find cp ≠ [] ∧
        ∃ cls ∈ ffj.clss, x = toIconSelector (Icon.mk icon.name (icon.modifiers ++ [cls])))) := by
  refine ⟨?_, ?_, ?_, ?_⟩
  · simp only [processIconMulti, hcp]
    rw [if_neg hcp0]
    rw [hnone]
  · intro i ffi hget hfind
    apply foldFallback_assigns_other
    intro q hq
    by_cases hqi : q.1 = i
    · right
      obtain ⟨k, hk1, hk2⟩ := mem_enumFrom_get 0 ffs q hq
      have hk : k = i := by omega
      rw [hk, hget] at hk2
      have hqe : ffi = q.2 := Option.some.inj hk2
      rw [← hqe]
      exact hfind
    · left
      exact hqi
  · intro i ffi hget hfind
    have hi : i < ffs.length := by
      by_contra hcon
      push_neg at hcon
      rw [List.getElem?_eq_none hcon] at hget
      exact Option.noConfusion hget
    obtain ⟨L1, L2, heq, h1, h2⟩ := enumFrom_split ffs 0 i ffi hget
    rw [Nat.zero_add] at heq h1 h2
    have hexp : fallbackExpand ffs cp icon s
        = L2.foldl (fun st q => fallbackStep cp icon st q)
            (fallbackStep cp icon (L1.foldl (fun st q => fallbackStep cp icon st q) s)
              (i, ffi)) := by
      simp only [fallbackExpand, heq, List.foldl_append, List.foldl_cons]
    have hsub : ∀ q ∈ L1, q.1 < ffs.length := by
      intro q hq
      have hmem : q ∈ enumFrom 0 ffs := by
        rw [heq]
        exact List.mem_append_left _ hq
      have := (mem_enumFrom 0 ffs q hmem).2.1
      omega
    have hcore1 := (foldFallback_inv base ffs.length cp icon L1 s hc hb hsub).1
    obtain ⟨ncp, hncp0, hlook1, hsels⟩ := fallbackStep_establishes base ffs.length cp icon
      (L1.foldl (fun st q => fallbackStep cp icon st q) s) i ffi hcore1 hb hi hfind
    have hL2cond : ∀ q ∈ L2, q.1 ≠ i ∨ q.2.find cp = [] := by
      intro q hq
      left
      have := h2 q hq
      omega
    refine ⟨ncp, hncp0, ?_, ?_⟩
    · rw [hexp]
      rw [foldFallback_assigns_other cp icon i L2 _ hL2cond]
      exact hlook1
    · intro cls hcls
      rw [hexp]
      exact foldFallback_sel_persist cp icon L2 _ ncp _ (hsels cls hcls)
  · intro p hp x hx
    rcases foldFallback_sel_source cp icon (enumFrom 0 ffs) s p hp x hx with hold
      | ⟨q, hq, hf, c, hcq, hxq⟩
    · left
      exact hold
    · right
      obtain ⟨k, hk1, hk2⟩ := mem_enumFrom_get 0 ffs q hq
      exact ⟨k, q.2, hk2, hf, c, hcq, hxq⟩

/-- C6 witness: a concrete two-descriptor run where only the first descriptor
carries the glyph at the legacy codepoint, so expansion records one derived
selector and leaves the second descriptor's map untouched. -/
theorem claim_C6_witness :
    processIconMulti [FontFace.mk ["fab"] [Glyph.mk [5] 0], FontFace.mk ["fas"] []]
        [("fa-star", 5)] (MState.mk [] (List.replicate 2 []) [] 1) (Icon.mk "fa-star" [])
      = Except.ok (fallbackExpand [FontFace.mk ["fab"] [Glyph.mk [5] 0], FontFace.mk ["fas"] []]
          5 (Icon.mk "fa-star" []) (MState.mk [] (List.replicate 2 []) [] 1)) ∧
    (fallbackExpand [FontFace.mk ["fab"] [Glyph.mk [5] 0], FontFace.mk ["fas"] []]
        5 (Icon.mk "fa-star" []) (MState.mk [] (List.replicate 2 []) [] 1)).assigns.getD 1 []
      = (MState.mk [] (List.replicate 2 []) [] 1).assigns.getD 1 [] ∧
    ∃ ncp, ncp ≠ 0 ∧
      lookupA ((fallbackExpand [FontFace.mk ["fab"] [Glyph.mk [5] 0], FontFace.mk ["fas"] []]
          5 (Icon.mk "fa-star" []) (MState.mk [] (List.replicate 2 []) [] 1)).assigns.getD 0 []) 5
        = Option.some ncp ∧
      ∀ cls ∈ (FontFace.mk ["fab"] [Glyph.mk [5] 0]).clss,
        ∃ p ∈ (fallbackExpand [FontFace.mk ["fab"] [Glyph.mk [5] 0], FontFace.mk ["fas"] []]
            5 (Icon.mk "fa-star" []) (MState.mk [] (List.replicate 2 []) [] 1)).sel, p.1 = ncp ∧
          toIconSelector (Icon.mk "fa-star" ([] ++ [cls])) ∈ p.2 := by
  have h := claim_C6_fallback_expansion
    [FontFace.mk ["fab"] [Glyph.mk [5] 0], FontFace.mk ["fas"] []]
    [("fa-star", 5)] (Icon.mk "fa-star" []) 1 5 (MState.mk [] (List.replicate 2 []) [] 1)
    (initial_core 1 2) (by decide) (by rfl) (by decide) (by rfl)
  exact ⟨h.1, h.2.1 1 (FontFace.mk ["fas"] []) (by rfl) (by rfl),
    h.2.2.1 0 (FontFace.mk ["fab"] [Glyph.mk [5] 0]) (by rfl) (by decide)⟩
